import Mathlib

/-!
Verification of the geometry and slide helpers of the `magnolia` toolkit.

The embedding models the host scene objects as values of type `Obj`: an
object carries its `location` vector and the list of its local bound-box
corner vertices (respectively its mesh vertices, which have the same
axis-aligned extremes).  The host's `matrix_world` is modelled as the pure
translation by the object's location, so the world position of a local
vertex `v` is `location + v`.  All coordinates are rational numbers.

Functions are translated from the Python sources in
`src/modules/magnolia/objects/align.py`, `src/modules/magnolia/slides/position.py`,
`src/modules/magnolia/slides/colors.py` and
`src/modules/magnolia/slides/objects/text.py`.  In-place mutation of a list
of objects is modelled by returning the updated list; the sequential loops
that first sort the targets and then mutate them in sorted order are
modelled by tagging each object with its original index, processing the
sorted tagged list, and restoring the original order at the end.
-/

/-- A 3D vector with rational coordinates, modelling `mathutils.Vector`. -/
structure Vec3 where
  x : ℚ
  y : ℚ
  z : ℚ
deriving DecidableEq, Repr

/-- The three axis names accepted by the alignment helpers
(`Axis = Literal["x", "y", "z"]` in `align.py`). -/
inductive Axis where
  | x
  | y
  | z
deriving DecidableEq, Repr

/-- Reading the component of a vector named by an axis
(`getattr(v, axis)` / `v[axis_index]` in the source). -/
def Vec3.coord : Axis → Vec3 → ℚ
  | Axis.x, v => v.x
  | Axis.y, v => v.y
  | Axis.z, v => v.z

/-- Writing the component of a vector named by an axis
(`setattr(v, axis, c)` / `v[axis_index] = c` in the source). -/
def Vec3.setCoord : Axis → ℚ → Vec3 → Vec3
  | Axis.x, c, v => ⟨c, v.y, v.z⟩
  | Axis.y, c, v => ⟨v.x, c, v.z⟩
  | Axis.z, c, v => ⟨v.x, v.y, c⟩

/-- A scene object: its `location` and the local coordinates of its
bound-box corner vertices (equivalently, for the 2D slide helpers, its mesh
vertices).  `matrix_world` is modelled as the translation by `loc`. -/
structure Obj where
  loc : Vec3
  verts : List Vec3
deriving DecidableEq, Repr

/-- Minimum of a list of rationals, as computed by the source's fold that
starts from `inf` and repeatedly takes `min` (the `[]` case is the
convention `0`, mirroring the `(0, 0, 0)` the source returns when there is
nothing to fold over). -/
def listMin : List ℚ → ℚ
  | [] => 0
  | a :: l => l.foldl min a

/-- Maximum of a list of rationals, as computed by the source's fold that
starts from `-inf` and repeatedly takes `max`. -/
def listMax : List ℚ → ℚ
  | [] => 0
  | a :: l => l.foldl max a

/-- World coordinates of an object's vertices:
`target.matrix_world @ Vector(vert)`, i.e. `loc + vert` in this embedding. -/
def worldVerts (o : Obj) : List Vec3 :=
  o.verts.map (fun v => ⟨o.loc.x + v.x, o.loc.y + v.y, o.loc.z + v.z⟩)

/-- The bounding box of a list of objects in global coordinates,
from `bounding_box` in `align.py`: fold `min`/`max` over every world vertex
of every target, returning `((0,0,0), (0,0,0))` when there are no targets. -/
def bounding_box (targets : List Obj) : Vec3 × Vec3 :=
  if targets = [] then (⟨0, 0, 0⟩, ⟨0, 0, 0⟩)
  else
    let vs := (targets.map worldVerts).flatten
    (⟨listMin (vs.map Vec3.x), listMin (vs.map Vec3.y), listMin (vs.map Vec3.z)⟩,
     ⟨listMax (vs.map Vec3.x), listMax (vs.map Vec3.y), listMax (vs.map Vec3.z)⟩)

/-- Minimum edge of one object's world bounding box along an axis
(`bounding_box(obj)[0][axis_index]` in the source). -/
def axisMin (a : Axis) (o : Obj) : ℚ :=
  Vec3.coord a (bounding_box [o]).1

/-- Maximum edge of one object's world bounding box along an axis
(`bounding_box(obj)[1][axis_index]` in the source). -/
def axisMax (a : Axis) (o : Obj) : ℚ :=
  Vec3.coord a (bounding_box [o]).2

/-- Shifting an object's location along one axis by a difference
(`setattr(obj.location, axis, obj.location[axis_index] + difference)`). -/
def moveLoc (a : Axis) (d : ℚ) (o : Obj) : Obj :=
  { o with loc := Vec3.setCoord a (Vec3.coord a o.loc + d) o.loc }

/-- The alignment modes of `align` (`AlignmentMode = Literal["min", "center", "max"]`). -/
inductive AlignmentMode where
  | min
  | center
  | max
deriving DecidableEq, Repr

/-- The per-object alignment key used by the bounding-box branch of `align`:
box min for mode "min", box midpoint for "center", box max for "max". -/
def keyValue (mode : AlignmentMode) (a : Axis) (o : Obj) : ℚ :=
  match mode with
  | AlignmentMode.min => axisMin a o
  | AlignmentMode.center => (axisMin a o + axisMax a o) / 2
  | AlignmentMode.max => axisMax a o

/-- The common target value the bounding-box branch of `align` computes:
least box min, mean of box midpoints, or greatest box max. -/
def alignTargetValue (mode : AlignmentMode) (a : Axis) (targets : List Obj) : ℚ :=
  match mode with
  | AlignmentMode.min => listMin (targets.map (axisMin a))
  | AlignmentMode.center =>
      (targets.map (fun o => (axisMin a o + axisMax a o) / 2)).sum / targets.length
  | AlignmentMode.max => listMax (targets.map (axisMax a))

/-- The common target value the location branch of `align` computes from
the objects' translation coordinates. -/
def alignTargetValueLoc (mode : AlignmentMode) (a : Axis) (targets : List Obj) : ℚ :=
  match mode with
  | AlignmentMode.min => listMin (targets.map (fun o => Vec3.coord a o.loc))
  | AlignmentMode.center =>
      (targets.map (fun o => Vec3.coord a o.loc)).sum / targets.length
  | AlignmentMode.max => listMax (targets.map (fun o => Vec3.coord a o.loc))

/-- The body of `align` from `align.py`, after axis validation and target
resolution: do nothing on an empty target list; with `use_locations` set,
write the common location value into every target's translation; otherwise
move every target so that its bounding-box key reaches the common value. -/
def align (a : Axis) (mode : AlignmentMode) (use_locations : Bool)
    (targets : List Obj) : List Obj :=
  if targets = [] then targets
  else if use_locations then
    let value := alignTargetValueLoc mode a targets
    targets.map (fun o => { o with loc := Vec3.setCoord a value o.loc })
  else
    let value := alignTargetValue mode a targets
    targets.map (fun o => moveLoc a (value - keyValue mode a o) o)

/-! ### Basic facts about the min/max folds -/

theorem foldl_min_le_init (l : List ℚ) (a : ℚ) : l.foldl min a ≤ a := by
  induction l generalizing a with
  | nil => exact le_refl a
  | cons x xs ih => exact le_trans (ih (min a x)) (min_le_left a x)

theorem foldl_min_le_mem (l : List ℚ) (a : ℚ) {x : ℚ} (hx : x ∈ l) :
    l.foldl min a ≤ x := by
  induction l generalizing a with
  | nil => cases hx
  | cons y ys ih =>
    rcases List.mem_cons.mp hx with h | h
    · subst h
      exact le_trans (foldl_min_le_init ys (min a x)) (min_le_right a x)
    · exact ih (min a y) h

theorem foldl_min_mem_or (l : List ℚ) (a : ℚ) :
    l.foldl min a = a ∨ l.foldl min a ∈ l := by
  induction l generalizing a with
  | nil => exact Or.inl rfl
  | cons x xs ih =>
    rcases ih (min a x) with h | h
    · rcases min_cases a x with ⟨he, _⟩ | ⟨he, _⟩
      · exact Or.inl (by rw [List.foldl_cons, h, he])
      · refine Or.inr ?_
        rw [List.foldl_cons, h, he]
        exact List.mem_cons_self x xs
    · exact Or.inr (List.mem_cons_of_mem x h)

theorem listMin_le {l : List ℚ} {x : ℚ} (hx : x ∈ l) : listMin l ≤ x := by
  cases l with
  | nil => cases hx
  | cons a as =>
    rcases List.mem_cons.mp hx with h | h
    · subst h
      exact foldl_min_le_init as x
    · exact foldl_min_le_mem as a h

theorem listMin_mem {l : List ℚ} (h : l ≠ []) : listMin l ∈ l := by
  cases l with
  | nil => exact absurd rfl h
  | cons a as =>
    rcases foldl_min_mem_or as a with he | he
    · exact List.mem_cons.mpr (Or.inl (by simpa [listMin] using he))
    · exact List.mem_cons_of_mem a (by simpa [listMin] using he)

theorem foldl_max_init_le (l : List ℚ) (a : ℚ) : a ≤ l.foldl max a := by
  induction l generalizing a with
  | nil => exact le_refl a
  | cons x xs ih => exact le_trans (le_max_left a x) (ih (max a x))

theorem foldl_max_mem_le (l : List ℚ) (a : ℚ) {x : ℚ} (hx : x ∈ l) :
    x ≤ l.foldl max a := by
  induction l generalizing a with
  | nil => cases hx
  | cons y ys ih =>
    rcases List.mem_cons.mp hx with h | h
    · subst h
      exact le_trans (le_max_right a x) (foldl_max_init_le ys (max a x))
    · exact ih (max a y) h

theorem foldl_max_mem_or (l : List ℚ) (a : ℚ) :
    l.foldl max a = a ∨ l.foldl max a ∈ l := by
  induction l generalizing a with
  | nil => exact Or.inl rfl
  | cons x xs ih =>
    rcases ih (max a x) with h | h
    · rcases max_cases a x with ⟨he, _⟩ | ⟨he, _⟩
      · exact Or.inl (by rw [List.foldl_cons, h, he])
      · refine Or.inr ?_
        rw [List.foldl_cons, h, he]
        exact List.mem_cons_self x xs
    · exact Or.inr (List.mem_cons_of_mem x h)

theorem le_listMax {l : List ℚ} {x : ℚ} (hx : x ∈ l) : x ≤ listMax l := by
  cases l with
  | nil => cases hx
  | cons a as =>
    rcases List.mem_cons.mp hx with h | h
    · subst h
      exact foldl_max_init_le as x
    · exact foldl_max_mem_le as a h

theorem listMax_mem {l : List ℚ} (h : l ≠ []) : listMax l ∈ l := by
  cases l with
  | nil => exact absurd rfl h
  | cons a as =>
    rcases foldl_max_mem_or as a with he | he
    · exact List.mem_cons.mpr (Or.inl (by simpa [listMax] using he))
    · exact List.mem_cons_of_mem a (by simpa [listMax] using he)

theorem listMin_eq_of {l : List ℚ} {m : ℚ} (hm : m ∈ l) (hle : ∀ x ∈ l, m ≤ x) :
    listMin l = m :=
  le_antisymm (listMin_le hm) (hle _ (listMin_mem (List.ne_nil_of_mem hm)))

theorem listMax_eq_of {l : List ℚ} {m : ℚ} (hm : m ∈ l) (hle : ∀ x ∈ l, x ≤ m) :
    listMax l = m :=
  le_antisymm (hle _ (listMax_mem (List.ne_nil_of_mem hm))) (le_listMax hm)

theorem listMin_perm {l₁ l₂ : List ℚ} (h : l₁.Perm l₂) (hne : l₁ ≠ []) :
    listMin l₁ = listMin l₂ := by
  have hne₂ : l₂ ≠ [] := fun he => hne (List.Perm.eq_nil (he ▸ h))
  apply listMin_eq_of
  · exact h.mem_iff.mpr (listMin_mem hne₂)
  · intro x hx
    exact listMin_le (h.mem_iff.mp hx)

theorem listMax_perm {l₁ l₂ : List ℚ} (h : l₁.Perm l₂) (hne : l₁ ≠ []) :
    listMax l₁ = listMax l₂ := by
  have hne₂ : l₂ ≠ [] := fun he => hne (List.Perm.eq_nil (he ▸ h))
  apply listMax_eq_of
  · exact h.mem_iff.mpr (listMax_mem hne₂)
  · intro x hx
    exact le_listMax (h.mem_iff.mp hx)

theorem listMin_map_add (l : List ℚ) (d : ℚ) (h : l ≠ []) :
    listMin (l.map (fun x => x + d)) = listMin l + d := by
  have key : ∀ (xs : List ℚ) (a : ℚ),
      (xs.map (fun x => x + d)).foldl min (a + d) = xs.foldl min a + d := by
    intro xs
    induction xs with
    | nil => intro a; rfl
    | cons y ys ih =>
      intro a
      simpa [min_add_add_right] using ih (min a y)
  cases l with
  | nil => exact absurd rfl h
  | cons a as => simpa [listMin] using key as a

theorem listMax_map_add (l : List ℚ) (d : ℚ) (h : l ≠ []) :
    listMax (l.map (fun x => x + d)) = listMax l + d := by
  have key : ∀ (xs : List ℚ) (a : ℚ),
      (xs.map (fun x => x + d)).foldl max (a + d) = xs.foldl max a + d := by
    intro xs
    induction xs with
    | nil => intro a; rfl
    | cons y ys ih =>
      intro a
      simpa [max_add_add_right] using ih (max a y)
  cases l with
  | nil => exact absurd rfl h
  | cons a as => simpa [listMax] using key as a

/-! ### Coordinate lemmas -/

theorem coord_setCoord_same (a : Axis) (c : ℚ) (v : Vec3) :
    Vec3.coord a (Vec3.setCoord a c v) = c := by
  cases a <;> rfl

theorem coord_setCoord_ne {a b : Axis} (h : b ≠ a) (c : ℚ) (v : Vec3) :
    Vec3.coord b (Vec3.setCoord a c v) = Vec3.coord b v := by
  cases a <;> cases b <;> first | rfl | exact absurd rfl h

theorem setCoord_coord_self (a : Axis) (v : Vec3) :
    Vec3.setCoord a (Vec3.coord a v) v = v := by
  cases a <;> rfl

theorem axisMin_eq (a : Axis) (o : Obj) :
    axisMin a o =
      listMin (o.verts.map (fun v => Vec3.coord a o.loc + Vec3.coord a v)) := by
  cases a <;>
      simp [axisMin, bounding_box, worldVerts, Vec3.coord, List.map_map,
        Function.comp] <;>
    rfl

theorem axisMax_eq (a : Axis) (o : Obj) :
    axisMax a o =
      listMax (o.verts.map (fun v => Vec3.coord a o.loc + Vec3.coord a v)) := by
  cases a <;>
      simp [axisMax, bounding_box, worldVerts, Vec3.coord, List.map_map,
        Function.comp] <;>
    rfl

theorem verts_moveLoc (a : Axis) (d : ℚ) (o : Obj) : (moveLoc a d o).verts = o.verts :=
  rfl

theorem coord_moveLoc_same (a : Axis) (d : ℚ) (o : Obj) :
    Vec3.coord a (moveLoc a d o).loc = Vec3.coord a o.loc + d :=
  coord_setCoord_same a _ o.loc

theorem coord_moveLoc_ne {a b : Axis} (h : b ≠ a) (d : ℚ) (o : Obj) :
    Vec3.coord b (moveLoc a d o).loc = Vec3.coord b o.loc :=
  coord_setCoord_ne h _ o.loc

theorem axisMin_moveLoc_same (a : Axis) (d : ℚ) (o : Obj) (h : o.verts ≠ []) :
    axisMin a (moveLoc a d o) = axisMin a o + d := by
  rw [axisMin_eq, axisMin_eq, verts_moveLoc, coord_moveLoc_same]
  have hfun : (fun v => Vec3.coord a o.loc + d + Vec3.coord a v)
      = ((fun x => x + d) ∘ fun v => Vec3.coord a o.loc + Vec3.coord a v) := by
    funext v
    simp only [Function.comp_apply]
    ring
  rw [hfun, ← List.map_map]
  exact listMin_map_add _ d (by simpa using h)

theorem axisMax_moveLoc_same (a : Axis) (d : ℚ) (o : Obj) (h : o.verts ≠ []) :
    axisMax a (moveLoc a d o) = axisMax a o + d := by
  rw [axisMax_eq, axisMax_eq, verts_moveLoc, coord_moveLoc_same]
  have hfun : (fun v => Vec3.coord a o.loc + d + Vec3.coord a v)
      = ((fun x => x + d) ∘ fun v => Vec3.coord a o.loc + Vec3.coord a v) := by
    funext v
    simp only [Function.comp_apply]
    ring
  rw [hfun, ← List.map_map]
  exact listMax_map_add _ d (by simpa using h)

theorem axisMin_moveLoc_ne {a b : Axis} (h : b ≠ a) (d : ℚ) (o : Obj) :
    axisMin b (moveLoc a d o) = axisMin b o := by
  rw [axisMin_eq, axisMin_eq, verts_moveLoc, coord_moveLoc_ne h]

theorem axisMax_moveLoc_ne {a b : Axis} (h : b ≠ a) (d : ℚ) (o : Obj) :
    axisMax b (moveLoc a d o) = axisMax b o := by
  rw [axisMax_eq, axisMax_eq, verts_moveLoc, coord_moveLoc_ne h]

/-! ### Unfolding equations for `align` -/

theorem align_eq_map (a : Axis) (mode : AlignmentMode) (ts : List Obj)
    (hne : ts ≠ []) :
    align a mode false ts =
      ts.map (fun o => moveLoc a (alignTargetValue mode a ts - keyValue mode a o) o) := by
  unfold align
  rw [if_neg hne]
  rfl

theorem align_loc_eq_map (a : Axis) (mode : AlignmentMode) (ts : List Obj)
    (hne : ts ≠ []) :
    align a mode true ts =
      ts.map (fun o =>
        { o with loc := Vec3.setCoord a (alignTargetValueLoc mode a ts) o.loc }) := by
  unfold align
  rw [if_neg hne]
  rfl

/-- C1: for every non-empty list of objects and every axis, after
`align(objects, axis, mode)` with `use_locations=False`, every object ends
with the same alignment value along that axis: in mode "min" each object's
world bounding-box minimum equals the least of the objects' original
bounding-box minima, in mode "center" each object's bounding-box midpoint
equals the arithmetic mean of the objects' original midpoints, and in mode
"max" each object's bounding-box maximum equals the greatest of the
original maxima. -/
theorem align_bbox_aligns (a : Axis) (mode : AlignmentMode) (ts : List Obj)
    (hne : ts ≠ []) (hv : ∀ o ∈ ts, o.verts ≠ [])
    (o' : Obj) (ho' : o' ∈ align a mode false ts) :
    (mode = AlignmentMode.min →
      axisMin a o' = listMin (ts.map (axisMin a))) ∧
    (mode = AlignmentMode.center →
      (axisMin a o' + axisMax a o') / 2 =
        (ts.map (fun o => (axisMin a o + axisMax a o) / 2)).sum / ts.length) ∧
    (mode = AlignmentMode.max →
      axisMax a o' = listMax (ts.map (axisMax a))) := by
  rw [align_eq_map a mode ts hne] at ho'
  obtain ⟨o, ho, rfl⟩ := List.mem_map.mp ho'
  refine ⟨?_, ?_, ?_⟩ <;> intro hm <;> subst hm
  · rw [axisMin_moveLoc_same a _ o (hv o ho)]
    simp only [keyValue, alignTargetValue]
    ring
  · rw [axisMin_moveLoc_same a _ o (hv o ho), axisMax_moveLoc_same a _ o (hv o ho)]
    simp only [keyValue, alignTargetValue]
    ring
  · rw [axisMax_moveLoc_same a _ o (hv o ho)]
    simp only [keyValue, alignTargetValue]
    ring

/-- A concrete object used by witnesses: a unit point at the origin. -/
def wObjA : Obj := ⟨⟨0, 0, 0⟩, [⟨0, 0, 0⟩]⟩

/-- A concrete object used by witnesses: a point at x = 2. -/
def wObjB : Obj := ⟨⟨2, 0, 0⟩, [⟨0, 0, 0⟩]⟩

/-- Witness for C1 on the concrete pair `[wObjA, wObjB]` in mode "min". -/
theorem align_bbox_aligns_witness :
    axisMin Axis.x
        (moveLoc Axis.x
          (alignTargetValue AlignmentMode.min Axis.x [wObjA, wObjB] -
            keyValue AlignmentMode.min Axis.x wObjB) wObjB) =
      listMin (([wObjA, wObjB] : List Obj).map (axisMin Axis.x)) := by
  have hmem : moveLoc Axis.x
      (alignTargetValue AlignmentMode.min Axis.x [wObjA, wObjB] -
        keyValue AlignmentMode.min Axis.x wObjB) wObjB ∈
      align Axis.x AlignmentMode.min false [wObjA, wObjB] := by
    rw [align_eq_map Axis.x AlignmentMode.min [wObjA, wObjB] (by decide)]
    exact List.mem_map_of_mem _ (by simp)
  exact (align_bbox_aligns Axis.x AlignmentMode.min [wObjA, wObjB] (by decide)
    (by decide) _ hmem).1 rfl

/-! ### Slide positions (`slides/position.py`) -/

/-- A Magnolia position: a 2-tuple `(x, y)` or a 3-tuple `(x, y, z)`
(`Position = tuple[float, float] | tuple[float, float, float]`). -/
inductive Position where
  | xy (x y : ℚ)
  | xyz (x y z : ℚ)
deriving DecidableEq, Repr

/-- Scaling a length from pixels to slide proportions (`scale_length`):
`length / 100`. -/
def scale_length (length : ℚ) : ℚ :=
  length / 100

/-- The body of `resolve_position`, with the slide dimensions (read from the
host's render settings by `get_slide_dimensions`) passed as parameters:
a 2-tuple gets `z = 1`; a coordinate between 0 and 1 inclusive is scaled by
the slide dimension; the result is `(x/100, y/100, z * 0.02)`. -/
def resolve_position (slide_width slide_height : ℚ) (position : Position) :
    ℚ × ℚ × ℚ :=
  let p :=
    match position with
    | Position.xy x y => (x, y, (1 : ℚ))
    | Position.xyz x y z => (x, y, z)
  let x := if 0 ≤ p.1 ∧ p.1 ≤ 1 then p.1 * slide_width else p.1
  let y := if 0 ≤ p.2.1 ∧ p.2.1 ≤ 1 then p.2.1 * slide_height else p.2.1
  (scale_length x, scale_length y, p.2.2 * 0.02)

/-- C5: `resolve_position` treats a 2-tuple `(x, y)` as `(x, y, 1)`; any
coordinate lying in the closed interval `[0, 1]` is multiplied by the slide
dimension (so a pixel coordinate of exactly 0 or 1 is also treated as a
proportion); and the returned world position is
`(x'/100, y'/100, z * 0.02)` for the possibly-scaled coordinates. -/
theorem resolve_position_spec (w h x y z : ℚ) :
    resolve_position w h (Position.xy x y) =
      resolve_position w h (Position.xyz x y 1) ∧
    resolve_position w h (Position.xyz x y z) =
      ((if 0 ≤ x ∧ x ≤ 1 then x * w else x) / 100,
       (if 0 ≤ y ∧ y ≤ 1 then y * h else y) / 100,
       z * 0.02) ∧
    ((x = 0 ∨ x = 1) →
      (resolve_position w h (Position.xyz x y z)).1 = x * w / 100) := by
  refine ⟨rfl, rfl, ?_⟩
  rintro (rfl | rfl) <;> norm_num [resolve_position, scale_length]

/-- Witness for C5: at `x = 1` the pixel coordinate is still scaled by the
slide width. -/
theorem resolve_position_spec_witness :
    (resolve_position 200 100 (Position.xyz 1 5 2)).1 = 1 * 200 / 100 :=
  (resolve_position_spec 200 100 1 5 2).2.2 (Or.inr rfl)

/-! ### The import of `magnolia.slides.position` (C3)

`position.py` line 4 reads
`from magnolia.objects.align import bounding_box, compute_center`;
the names a `from ... import` statement requires must all be bound at the
top level of the imported module, otherwise Python raises `ImportError`.
`align_module_names` lists every top-level binding of
`src/modules/magnolia/objects/align.py` (its own imports plus its
definitions). -/

/-- Every name bound at the top level of `magnolia.objects.align`. -/
def align_module_names : List String :=
  ["math", "Vector", "Literal", "ObjectArg", "ObjectsArg", "resolve_object",
   "resolve_objects", "selections", "Axis", "AlignmentMode", "align", "alignX",
   "alignY", "alignZ", "alignTo", "distribute", "distributeX", "distributeY",
   "distributeZ", "validate_axis", "bounding_box"]

/-- The names `magnolia.slides.position` tries to import from
`magnolia.objects.align`. -/
def position_align_imports : List String :=
  ["bounding_box", "compute_center"]

/-- Python's `from module import names`: succeeds only when every requested
name is bound in the module, raising `ImportError` otherwise. -/
def import_from (available requested : List String) : Except String Unit :=
  if requested.all (fun n => available.contains n) then Except.ok ()
  else Except.error "ImportError"

/-- Importing `magnolia.slides.position` executes its `from ... import`
line against the bindings of `magnolia.objects.align`. -/
def import_position_module : Except String Unit :=
  import_from align_module_names position_align_imports

/-- C3: importing `magnolia.slides.position` always raises `ImportError`,
because it requests `compute_center` from `magnolia.objects.align`, which
binds no such name (while `bounding_box` does exist there); consequently no
function of that module is reachable through a normal import. -/
theorem import_position_module_fails :
    import_position_module = Except.error "ImportError" ∧
    "compute_center" ∉ align_module_names ∧
    "bounding_box" ∈ align_module_names := by
  refine ⟨rfl, ?_, ?_⟩ <;> decide

/-! ### Text alignment (`slides/objects/text.py`) -/

/-- The two text-alignment fields of a `TextCurve` that
`set_text_alignment` writes. -/
structure TextData where
  align_x : String
  align_y : String
deriving DecidableEq, Repr

/-- The nine members of the `Anchor` literal type in `slides/position.py`. -/
def anchor_members : List String :=
  ["topleft", "top", "topright", "left", "center", "right", "bottomleft",
   "bottom", "bottomright"]

/-- The body of `set_text_alignment` from `text.py`: a `match` on the
anchor string; a Python `match` with no matching case falls through and
changes nothing, which the final wildcard models. -/
def set_text_alignment (t : TextData) (anchor : String) : TextData :=
  match anchor with
  | "topleft" => { align_x := "LEFT", align_y := "TOP" }
  | "top" => { align_x := "CENTER", align_y := "TOP" }
  | "topright" => { align_x := "RIGHT", align_y := "TOP" }
  | "left" => { align_x := "LEFT", align_y := "CENTER" }
  | "center" => { align_x := "CENTER", align_y := "CENTER" }
  | "right" => { align_x := "RIGHT", align_y := "CENTER" }
  | "bottomleft" => { align_x := "LEFT", align_y := "BOTTOM" }
  | "bottomcenter" => { align_x := "CENTER", align_y := "BOTTOM" }
  | "bottomright" => { align_x := "RIGHT", align_y := "BOTTOM" }
  | _ => t

/-- C10: `set_text_alignment` sets both alignment fields for eight of the
nine anchors, but the valid anchor "bottom" matches no case (the code
matches "bottomcenter", which is not an `Anchor` member), so a text created
with anchor "bottom" keeps its default alignment. -/
theorem set_text_alignment_bottom_unchanged :
    (∀ t : TextData, set_text_alignment t "bottom" = t) ∧
    "bottomcenter" ∉ anchor_members ∧
    "bottom" ∈ anchor_members ∧
    (∀ t : TextData,
      set_text_alignment t "topleft" = ⟨"LEFT", "TOP"⟩ ∧
      set_text_alignment t "top" = ⟨"CENTER", "TOP"⟩ ∧
      set_text_alignment t "topright" = ⟨"RIGHT", "TOP"⟩ ∧
      set_text_alignment t "left" = ⟨"LEFT", "CENTER"⟩ ∧
      set_text_alignment t "center" = ⟨"CENTER", "CENTER"⟩ ∧
      set_text_alignment t "right" = ⟨"RIGHT", "CENTER"⟩ ∧
      set_text_alignment t "bottomleft" = ⟨"LEFT", "BOTTOM"⟩ ∧
      set_text_alignment t "bottomright" = ⟨"RIGHT", "BOTTOM"⟩) := by
  refine ⟨fun t => rfl, by decide, by decide,
    fun t => ⟨rfl, rfl, rfl, rfl, rfl, rfl, rfl, rfl⟩⟩

/-! ### Color conversion (`slides/colors.py`)

The Python arithmetic is over floats; the embedding reads it over the real
numbers, with `**` as the real power function. -/

/-- The inner `convert_channel` of `srgb_to_linear_rgb`. -/
noncomputable def convert_channel (c : ℝ) : ℝ :=
  if c < 0 then 0
  else if c < 0.04045 then c / 12.92
  else ((c + 0.055) / 1.055) ^ (2.4 : ℝ)

/-- `srgb_to_linear_rgb`: convert each 0–255 channel after dividing by 255,
and append an alpha of 1. -/
noncomputable def srgb_to_linear_rgb (color : ℤ × ℤ × ℤ) : ℝ × ℝ × ℝ × ℝ :=
  (convert_channel ((color.1 : ℝ) / 255),
   convert_channel ((color.2.1 : ℝ) / 255),
   convert_channel ((color.2.2 : ℝ) / 255),
   1)

theorem convert_channel_bounds {u : ℝ} (h0 : 0 ≤ u) (h1 : u ≤ 1) :
    0 ≤ convert_channel u ∧ convert_channel u ≤ 1 := by
  unfold convert_channel
  split_ifs with hneg hsmall
  · exact ⟨le_refl 0, zero_le_one⟩
  · constructor
    · positivity
    · have h12 : u / 12.92 ≤ 1 / 12.92 := by
        apply div_le_div_of_nonneg_right h1
        norm_num
      linarith
  · have hbase0 : (0 : ℝ) ≤ (u + 0.055) / 1.055 := by positivity
    have hbase1 : (u + 0.055) / 1.055 ≤ 1 := by
      rw [div_le_one (by norm_num : (0 : ℝ) < 1.055)]
      linarith
    exact ⟨Real.rpow_nonneg hbase0 _,
      Real.rpow_le_one hbase0 hbase1 (by norm_num)⟩

/-- C4: for every color `(r, g, b)` with each channel in `[0, 255]`,
`srgb_to_linear_rgb` returns a 4-tuple whose alpha is exactly 1, whose i-th
color component is `f(c/255)` for the piecewise conversion `f`, and whose
color components all lie in `[0, 1]`. -/
theorem srgb_to_linear_rgb_spec (r g b : ℤ)
    (hr0 : 0 ≤ r) (hr1 : r ≤ 255) (hg0 : 0 ≤ g) (hg1 : g ≤ 255)
    (hb0 : 0 ≤ b) (hb1 : b ≤ 255) :
    (srgb_to_linear_rgb (r, g, b)).2.2.2 = 1 ∧
    (srgb_to_linear_rgb (r, g, b)).1 = convert_channel ((r : ℝ) / 255) ∧
    (srgb_to_linear_rgb (r, g, b)).2.1 = convert_channel ((g : ℝ) / 255) ∧
    (srgb_to_linear_rgb (r, g, b)).2.2.1 = convert_channel ((b : ℝ) / 255) ∧
    (∀ u : ℝ, convert_channel u =
      if u < 0 then 0
      else if u < 0.04045 then u / 12.92
      else ((u + 0.055) / 1.055) ^ (2.4 : ℝ)) ∧
    (0 ≤ (srgb_to_linear_rgb (r, g, b)).1 ∧ (srgb_to_linear_rgb (r, g, b)).1 ≤ 1) ∧
    (0 ≤ (srgb_to_linear_rgb (r, g, b)).2.1 ∧
      (srgb_to_linear_rgb (r, g, b)).2.1 ≤ 1) ∧
    (0 ≤ (srgb_to_linear_rgb (r, g, b)).2.2.1 ∧
      (srgb_to_linear_rgb (r, g, b)).2.2.1 ≤ 1) := by
  have hch : ∀ c : ℤ, 0 ≤ c → c ≤ 255 →
      0 ≤ convert_channel ((c : ℝ) / 255) ∧ convert_channel ((c : ℝ) / 255) ≤ 1 := by
    intro c hc0 hc1
    apply convert_channel_bounds
    · apply div_nonneg _ (by norm_num)
      exact_mod_cast hc0
    · rw [div_le_one (by norm_num : (0 : ℝ) < 255)]
      exact_mod_cast hc1
  exact ⟨rfl, rfl, rfl, rfl, fun u => rfl, hch r hr0 hr1, hch g hg0 hg1,
    hch b hb0 hb1⟩

/-- Witness for C4 at the concrete color `(12, 128, 255)`. -/
theorem srgb_to_linear_rgb_spec_witness :
    (srgb_to_linear_rgb (12, 128, 255)).2.2.2 = 1 ∧
    0 ≤ (srgb_to_linear_rgb (12, 128, 255)).1 ∧
    (srgb_to_linear_rgb (12, 128, 255)).1 ≤ 1 := by
  obtain ⟨halpha, _, _, _, _, hr, _, _⟩ :=
    srgb_to_linear_rgb_spec 12 128 255 (by decide) (by decide) (by decide)
      (by decide) (by decide) (by decide)
  exact ⟨halpha, hr.1, hr.2⟩

/-! ### Anchors (`slides/position.py`) -/

/-- Pointwise-shifted maps: when `f` is `g` plus a constant, mapping `f`
equals mapping `g` and then adding the constant. -/
theorem map_eq_map_add {α : Type _} (f g : α → ℚ) (d : ℚ) (h : ∀ v, f v = g v + d) :
    ∀ l : List α, l.map f = (l.map g).map (fun q => q + d)
  | [] => rfl
  | a :: as => by
      simp only [List.map_cons]
      rw [h a, map_eq_map_add f g d h as]

theorem listMin_map_of_add {α : Type _} (f g : α → ℚ) (d : ℚ)
    (h : ∀ v, f v = g v + d) (l : List α) (hl : l ≠ []) :
    listMin (l.map f) = listMin (l.map g) + d := by
  rw [map_eq_map_add f g d h l]
  exact listMin_map_add _ d (by simpa using hl)

theorem listMax_map_of_add {α : Type _} (f g : α → ℚ) (d : ℚ)
    (h : ∀ v, f v = g v + d) (l : List α) (hl : l ≠ []) :
    listMax (l.map f) = listMax (l.map g) + d := by
  rw [map_eq_map_add f g d h l]
  exact listMax_map_add _ d (by simpa using hl)

/-- The 2D world bounding box of one object's mesh, from `get_bounding_box`
in `position.py`: fold `min`/`max` over the x and y world coordinates of
the vertices; the result is `((min_x, min_y), (max_x, max_y))`. -/
def get_bounding_box (o : Obj) : (ℚ × ℚ) × (ℚ × ℚ) :=
  ((listMin ((worldVerts o).map Vec3.x), listMin ((worldVerts o).map Vec3.y)),
   (listMax ((worldVerts o).map Vec3.x), listMax ((worldVerts o).map Vec3.y)))

/-- The nine anchors of `slides/position.py` as an inductive type. -/
inductive Anchor where
  | topleft
  | top
  | topright
  | left
  | center
  | right
  | bottomleft
  | bottom
  | bottomright
deriving DecidableEq, Repr

/-- The target point the `match anchor` table of `set_anchor` selects on a
2D bounding box: "left"/"right" pick the minimum/maximum x edge,
"bottom"/"top" the minimum/maximum y edge, "center" the midpoint. -/
def anchorPoint (anchor : Anchor) (bb : (ℚ × ℚ) × (ℚ × ℚ)) : ℚ × ℚ :=
  let min_x := bb.1.1
  let min_y := bb.1.2
  let max_x := bb.2.1
  let max_y := bb.2.2
  let avg_x := (min_x + max_x) / 2
  let avg_y := (min_y + max_y) / 2
  match anchor with
  | Anchor.topleft => (min_x, max_y)
  | Anchor.top => (avg_x, max_y)
  | Anchor.topright => (max_x, max_y)
  | Anchor.left => (min_x, avg_y)
  | Anchor.center => (avg_x, avg_y)
  | Anchor.right => (max_x, avg_y)
  | Anchor.bottomleft => (min_x, min_y)
  | Anchor.bottom => (avg_x, min_y)
  | Anchor.bottomright => (max_x, min_y)

/-- The body of `set_anchor` from `position.py`: compute the target point
on the object's 2D bounding box and translate the mesh data by
`(x - target_x, y - target_y, 0)` where `(x, y)` is the object's world
translation. -/
def set_anchor (o : Obj) (anchor : Anchor) : Obj :=
  let target := anchorPoint anchor (get_bounding_box o)
  let tx := o.loc.x - target.1
  let ty := o.loc.y - target.2
  { o with verts := o.verts.map (fun v => ⟨v.x + tx, v.y + ty, v.z⟩) }

theorem get_bounding_box_translate (o : Obj) (tx ty : ℚ) (h : o.verts ≠ []) :
    get_bounding_box
        { o with verts := o.verts.map (fun v => ⟨v.x + tx, v.y + ty, v.z⟩) } =
      (((get_bounding_box o).1.1 + tx, (get_bounding_box o).1.2 + ty),
       ((get_bounding_box o).2.1 + tx, (get_bounding_box o).2.2 + ty)) := by
  unfold get_bounding_box
  simp only [worldVerts, List.map_map, Prod.mk.injEq]
  refine ⟨⟨?_, ?_⟩, ?_, ?_⟩
  · apply listMin_map_of_add _ _ tx _ o.verts h
    intro v
    simp [Function.comp]
    ring
  · apply listMin_map_of_add _ _ ty _ o.verts h
    intro v
    simp [Function.comp]
    ring
  · apply listMax_map_of_add _ _ tx _ o.verts h
    intro v
    simp [Function.comp]
    ring
  · apply listMax_map_of_add _ _ ty _ o.verts h
    intro v
    simp [Function.comp]
    ring

/-- C6: for every mesh object and every one of the nine anchors, after
`set_anchor(object, anchor)` the named anchor point of the object's 2D
world bounding box coincides with the object's world translation `(x, y)`,
while the width and height of the bounding box are unchanged. -/
theorem set_anchor_spec (o : Obj) (anchor : Anchor) (h : o.verts ≠ []) :
    anchorPoint anchor (get_bounding_box (set_anchor o anchor)) =
      (o.loc.x, o.loc.y) ∧
    (get_bounding_box (set_anchor o anchor)).2.1 -
        (get_bounding_box (set_anchor o anchor)).1.1 =
      (get_bounding_box o).2.1 - (get_bounding_box o).1.1 ∧
    (get_bounding_box (set_anchor o anchor)).2.2 -
        (get_bounding_box (set_anchor o anchor)).1.2 =
      (get_bounding_box o).2.2 - (get_bounding_box o).1.2 := by
  have hsa : get_bounding_box (set_anchor o anchor) =
      (((get_bounding_box o).1.1 +
          (o.loc.x - (anchorPoint anchor (get_bounding_box o)).1),
        (get_bounding_box o).1.2 +
          (o.loc.y - (anchorPoint anchor (get_bounding_box o)).2)),
       ((get_bounding_box o).2.1 +
          (o.loc.x - (anchorPoint anchor (get_bounding_box o)).1),
        (get_bounding_box o).2.2 +
          (o.loc.y - (anchorPoint anchor (get_bounding_box o)).2))) := by
    exact get_bounding_box_translate o _ _ h
  rw [hsa]
  cases anchor <;>
    · simp only [anchorPoint, Prod.mk.injEq]
      refine ⟨⟨by ring, by ring⟩, by ring, by ring⟩

/-- Witness for C6 at a concrete two-vertex object and the "topright"
anchor. -/
theorem set_anchor_spec_witness :
    anchorPoint Anchor.topright
        (get_bounding_box (set_anchor wObjB Anchor.topright)) =
      (wObjB.loc.x, wObjB.loc.y) :=
  (set_anchor_spec wObjB Anchor.topright (by decide)).1

/-! ### Sorting and index tagging

Python's `sorted(..., key=...)` is modelled by a stable insertion sort;
in-place mutation of a sorted view of the target list is modelled by
tagging each object with its original index before sorting and restoring
the original order afterwards. -/

/-- Insertion step of the stable sort. -/
def insertByKey {α : Type _} (key : α → ℚ) (x : α) : List α → List α
  | [] => [x]
  | y :: ys => if key x ≤ key y then x :: y :: ys else y :: insertByKey key x ys

/-- Stable ascending sort by a rational key, modelling `sorted(l, key=key)`. -/
def sortByKey {α : Type _} (key : α → ℚ) : List α → List α
  | [] => []
  | x :: xs => insertByKey key x (sortByKey key xs)

theorem insertByKey_perm {α : Type _} (key : α → ℚ) (x : α) (l : List α) :
    (insertByKey key x l).Perm (x :: l) := by
  induction l with
  | nil => exact List.Perm.refl _
  | cons y ys ih =>
    unfold insertByKey
    split_ifs
    · exact List.Perm.refl _
    · exact List.Perm.trans (List.Perm.cons y ih) (List.Perm.swap x y ys)

theorem sortByKey_perm {α : Type _} (key : α → ℚ) (l : List α) :
    (sortByKey key l).Perm l := by
  induction l with
  | nil => exact List.Perm.refl _
  | cons x xs ih =>
    exact List.Perm.trans (insertByKey_perm key x (sortByKey key xs))
      (List.Perm.cons x ih)

theorem sortByKey_ne_nil {α : Type _} (key : α → ℚ) {l : List α} (h : l ≠ []) :
    sortByKey key l ≠ [] := by
  intro he
  apply h
  have hp := sortByKey_perm key l
  rw [he] at hp
  exact (List.Perm.nil_eq hp).symm

theorem insertByKey_pairwise {α : Type _} (key : α → ℚ) (x : α) {l : List α}
    (hl : l.Pairwise (fun p q => key p ≤ key q)) :
    (insertByKey key x l).Pairwise (fun p q => key p ≤ key q) := by
  induction l with
  | nil => simp [insertByKey]
  | cons y ys ih =>
    rcases List.pairwise_cons.mp hl with ⟨hy, hys⟩
    unfold insertByKey
    split_ifs with hxy
    · refine List.pairwise_cons.mpr ⟨?_, hl⟩
      intro z hz
      rcases List.mem_cons.mp hz with rfl | hz
      · exact hxy
      · exact le_trans hxy (hy z hz)
    · refine List.pairwise_cons.mpr ⟨?_, ih hys⟩
      intro z hz
      have hz' := (insertByKey_perm key x ys).mem_iff.mp hz
      rcases List.mem_cons.mp hz' with rfl | hz'
      · exact le_of_lt (lt_of_not_le hxy)
      · exact hy z hz'

theorem sortByKey_pairwise {α : Type _} (key : α → ℚ) (l : List α) :
    (sortByKey key l).Pairwise (fun p q => key p ≤ key q) := by
  induction l with
  | nil => simp [sortByKey]
  | cons x xs ih => exact insertByKey_pairwise key x ih

theorem pairwise_head_le {α : Type _} (key : α → ℚ) (l : List α)
    (hp : l.Pairwise (fun p q => key p ≤ key q)) (h : l ≠ []) :
    ∀ x ∈ l, key (l.head h) ≤ key x := by
  cases l with
  | nil => exact absurd rfl h
  | cons a as =>
    intro x hx
    rcases List.mem_cons.mp hx with rfl | hx
    · exact le_refl _
    · exact (List.pairwise_cons.mp hp).1 x hx

theorem pairwise_le_getLast {α : Type _} (key : α → ℚ) :
    ∀ (l : List α) (h : l ≠ []), l.Pairwise (fun p q => key p ≤ key q) →
      ∀ x ∈ l, key x ≤ key (l.getLast h)
  | [], h, _, _, _ => absurd rfl h
  | [a], _, _, x, hx => by
      rcases List.mem_singleton.mp hx with rfl
      exact le_refl _
  | a :: b :: bs, h, hp, x, hx => by
      rcases List.pairwise_cons.mp hp with ⟨ha, hbs⟩
      rw [List.getLast_cons (List.cons_ne_nil b bs)]
      rcases List.mem_cons.mp hx with rfl | hx
      · exact ha _ (List.getLast_mem (List.cons_ne_nil b bs))
      · exact pairwise_le_getLast key (b :: bs) (List.cons_ne_nil b bs) hbs x hx

theorem sorted_head_key {α : Type _} (key : α → ℚ) (l : List α)
    (hs : sortByKey key l ≠ []) :
    key ((sortByKey key l).head hs) = listMin (l.map key) := by
  have hperm : ((sortByKey key l).map key).Perm (l.map key) :=
    (sortByKey_perm key l).map key
  symm
  apply listMin_eq_of
  · exact hperm.mem_iff.mp
      (List.mem_map_of_mem key (List.head_mem hs))
  · intro x hx
    obtain ⟨y, hy, rfl⟩ := List.mem_map.mp (hperm.mem_iff.mpr hx)
    exact pairwise_head_le key _ (sortByKey_pairwise key l) hs y hy

theorem sorted_getLast_key {α : Type _} (key : α → ℚ) (l : List α)
    (hs : sortByKey key l ≠ []) :
    key ((sortByKey key l).getLast hs) = listMax (l.map key) := by
  have hperm : ((sortByKey key l).map key).Perm (l.map key) :=
    (sortByKey_perm key l).map key
  symm
  apply listMax_eq_of
  · exact hperm.mem_iff.mp
      (List.mem_map_of_mem key (List.getLast_mem hs))
  · intro x hx
    obtain ⟨y, hy, rfl⟩ := List.mem_map.mp (hperm.mem_iff.mpr hx)
    exact pairwise_le_getLast key _ hs (sortByKey_pairwise key l) y hy

/-- Tag each element of a list with its index, starting at `i`
(the identity of the mutated Python objects inside the sorted view). -/
def tagFrom {α : Type _} (i : Nat) : List α → List (Nat × α)
  | [] => []
  | x :: xs => (i, x) :: tagFrom (i + 1) xs

theorem tagFrom_length {α : Type _} (i : Nat) (l : List α) :
    (tagFrom i l).length = l.length := by
  induction l generalizing i with
  | nil => rfl
  | cons x xs ih => simp [tagFrom, ih]

theorem tagFrom_map_snd {α : Type _} (i : Nat) (l : List α) :
    (tagFrom i l).map Prod.snd = l := by
  induction l generalizing i with
  | nil => rfl
  | cons x xs ih => simp [tagFrom, ih]

theorem tagFrom_get? {α : Type _} (i : Nat) (l : List α) (k : Nat) :
    (tagFrom i l).get? k = (l.get? k).map (fun x => (i + k, x)) := by
  induction l generalizing i k with
  | nil => simp [tagFrom]
  | cons x xs ih =>
    cases k with
    | zero => simp [tagFrom]
    | succ k =>
      simp only [tagFrom, List.get?_cons_succ, ih (i + 1) k]
      cases xs.get? k <;> simp
      omega

theorem tagFrom_mem {α : Type _} {i : Nat} {l : List α} {j : Nat} {x : α}
    (h : (j, x) ∈ tagFrom i l) :
    ∃ k, k < l.length ∧ j = i + k ∧ l.get? k = some x := by
  induction l generalizing i with
  | nil => cases h
  | cons y ys ih =>
    rcases List.mem_cons.mp h with he | hm
    · refine ⟨0, by simp, ?_, ?_⟩
      · have := congrArg Prod.fst he
        simpa using this
      · have := congrArg Prod.snd he
        simpa using this.symm
    · obtain ⟨k, hk, hj, hget⟩ := ih hm
      exact ⟨k + 1, by simpa using hk, by omega, by simpa using hget⟩

theorem tagFrom_fst_ge {α : Type _} {i : Nat} {l : List α} {j : Nat}
    (h : j ∈ (tagFrom i l).map Prod.fst) : i ≤ j := by
  obtain ⟨p, hp, rfl⟩ := List.mem_map.mp h
  obtain ⟨k, _, hj, _⟩ := tagFrom_mem (show (p.1, p.2) ∈ tagFrom i l by simpa using hp)
  omega

theorem tagFrom_fst_nodup {α : Type _} (i : Nat) (l : List α) :
    ((tagFrom i l).map Prod.fst).Nodup := by
  induction l generalizing i with
  | nil => simp [tagFrom]
  | cons x xs ih =>
    simp only [tagFrom, List.map_cons, List.nodup_cons]
    refine ⟨fun hmem => ?_, ih (i + 1)⟩
    have := tagFrom_fst_ge hmem
    omega

/-- Looking up the updated object for an original index. -/
def lookupTag {α : Type _} (j : Nat) : List (Nat × α) → Option α
  | [] => none
  | (k, x) :: rest => if k = j then some x else lookupTag j rest

theorem lookupTag_eq_some {α : Type _} :
    ∀ {L : List (Nat × α)} {j : Nat} {x : α},
      (L.map Prod.fst).Nodup → (j, x) ∈ L → lookupTag j L = some x
  | [], _, _, _, h => by cases h
  | (k, y) :: rest, j, x, hnd, hmem => by
      have hnd' := hnd
      simp only [List.map_cons, List.nodup_cons] at hnd'
      obtain ⟨hk, hrest⟩ := hnd'
      rcases List.mem_cons.mp hmem with he | hm
      · have hj : k = j := by
          have := congrArg Prod.fst he
          simpa using this.symm
        have hx : y = x := by
          have := congrArg Prod.snd he
          simpa using this.symm
        simp [lookupTag, hj, hx]
      · have hkj : k ≠ j := by
          intro he'
          apply hk
          subst he'
          exact List.mem_map_of_mem Prod.fst hm
        simp only [lookupTag, if_neg hkj]
        exact lookupTag_eq_some hrest hm

theorem lookupTag_mem {α : Type _} :
    ∀ {L : List (Nat × α)} {j : Nat} {x : α},
      lookupTag j L = some x → (j, x) ∈ L
  | [], _, _, h => by cases h
  | (k, y) :: rest, j, x, h => by
      simp only [lookupTag] at h
      by_cases hk : k = j
      · subst hk
        rw [if_pos rfl] at h
        obtain rfl := Option.some.inj h
        exact List.mem_cons_self _ _
      · rw [if_neg hk] at h
        exact List.mem_cons_of_mem _ (lookupTag_mem h)

/-- Restore the original order after mutating a sorted tagged view:
position `j` of the result holds the updated object tagged `j`, falling
back to the original when index `j` was never touched. -/
def restore {α : Type _} (ts : List α) (assigned : List (Nat × α)) : List α :=
  (tagFrom 0 ts).map (fun p => (lookupTag p.1 assigned).getD p.2)

theorem restore_length {α : Type _} (ts : List α) (assigned : List (Nat × α)) :
    (restore ts assigned).length = ts.length := by
  simp [restore, tagFrom_length]

theorem restore_get? {α : Type _} (ts : List α) (assigned : List (Nat × α))
    {j : Nat} {x : α} (hnd : (assigned.map Prod.fst).Nodup)
    (hmem : (j, x) ∈ assigned) (hj : j < ts.length) :
    (restore ts assigned).get? j = some x := by
  unfold restore
  rw [List.get?_map, tagFrom_get? 0 ts j, List.get?_eq_get hj]
  simp [lookupTag_eq_some hnd hmem]

/-! ### `alignTo` and `distribute` (`align.py`) -/

/-- The body of `alignTo` from `align.py`: move the whole group by the
difference between the target's translation coordinate and the group's
average translation coordinate. -/
def alignTo (a : Axis) (target : Obj) (group : List Obj) : List Obj :=
  if group = [] then group
  else
    let target_location := Vec3.coord a target.loc
    let group_location :=
      (group.map (fun o => Vec3.coord a o.loc)).sum / group.length
    let difference := target_location - group_location
    group.map (moveLoc a difference)

/-- Writing a translation coordinate outright
(`setattr(obj.matrix_world.translation, axis, value)`). -/
def setLocCoord (a : Axis) (c : ℚ) (o : Obj) : Obj :=
  { o with loc := Vec3.setCoord a c o.loc }

/-- The targets of the location branch of `distribute`, sorted by
translation coordinate and tagged with their original indices. -/
def distLocSorted (a : Axis) (ts : List Obj) : List (Nat × Obj) :=
  sortByKey (fun p => Vec3.coord a p.2.loc) (tagFrom 0 ts)

/-- `min_value` of the location branch: the first sorted target's
coordinate. -/
def distLocMin (a : Axis) (ts : List Obj) : ℚ :=
  match (distLocSorted a ts).head? with
  | some p => Vec3.coord a p.2.loc
  | none => 0

/-- The last sorted target's coordinate (`targets[-1]` after sorting). -/
def distLocMax (a : Axis) (ts : List Obj) : ℚ :=
  match (distLocSorted a ts).getLast? with
  | some p => Vec3.coord a p.2.loc
  | none => 0

/-- `interval` of the location branch: the span between the last and first
sorted targets' coordinates divided by `len(targets) - 1`. -/
def distLocInterval (a : Axis) (ts : List Obj) : ℚ :=
  (distLocMax a ts - distLocMin a ts) / ((ts.length : ℚ) - 1)

/-- The location branch of `distribute`: sort targets by translation
coordinate and set the i-th sorted target's coordinate to
`min_value + interval * i`. -/
def distributeLoc (a : Axis) (ts : List Obj) : List Obj :=
  restore ts
    ((tagFrom 0 (distLocSorted a ts)).map
      (fun q =>
        (q.2.1,
          setLocCoord a (distLocMin a ts + distLocInterval a ts * (q.1 : ℚ))
            q.2.2)))

/-- The `data` list of the bounding-box branch of `distribute`: targets
tagged with their original indices, sorted by leading bounding-box edge. -/
def distBoxSorted (a : Axis) (ts : List Obj) : List (Nat × Obj) :=
  sortByKey (fun p => axisMin a p.2) (tagFrom 0 ts)

/-- `space_per_object` of the bounding-box branch: the total span minus the
size occupied by objects, divided by `len(data) - 1`. -/
def distBoxSpo (a : Axis) (ts : List Obj) : ℚ :=
  let data := distBoxSorted a ts
  let size_used := (data.map (fun p => axisMax a p.2 - axisMin a p.2)).sum
  let min_value := listMin (data.map (fun p => axisMin a p.2))
  let max_value := listMax (data.map (fun p => axisMax a p.2))
  (max_value - min_value - size_used) / ((ts.length : ℚ) - 1)

/-- The mutation loop of the bounding-box branch (`for i in range(1, len(data))`):
walk the sorted tail keeping the previous object's (moved) trailing edge,
and shift each object so the gap to the previous object equals
`space_per_object`. -/
def distLoop (a : Axis) (spo : ℚ) : ℚ → List (Nat × Obj) → List (Nat × Obj)
  | _, [] => []
  | prevMax, (j, o) :: rest =>
    let space := axisMin a o - prevMax
    let difference := spo - space
    (j, moveLoc a difference o) :: distLoop a spo (axisMax a o + difference) rest

/-- The bounding-box branch of `distribute`: the first sorted object stays
put; every later object is shifted so consecutive gaps equal
`space_per_object`. -/
def distributeBoxes (a : Axis) (ts : List Obj) : List Obj :=
  match distBoxSorted a ts with
  | [] => ts
  | first :: rest =>
      restore ts (first :: distLoop a (distBoxSpo a ts) (axisMax a first.2) rest)

/-- The body of `distribute` from `align.py`, after axis validation and
target resolution: do nothing with fewer than two targets, otherwise run
the location or bounding-box branch. -/
def distribute (a : Axis) (use_locations : Bool) (ts : List Obj) : List Obj :=
  if ts.length < 2 then ts
  else if use_locations then distributeLoc a ts
  else distributeBoxes a ts

theorem tagFrom_ne_nil {α : Type _} (i : Nat) {l : List α} (h : l ≠ []) :
    tagFrom i l ≠ [] := by
  intro he
  apply h
  have hlen := tagFrom_length i l
  rw [he] at hlen
  exact List.length_eq_zero.mp hlen.symm

theorem tagFrom_map_comp {α β : Type _} (g : α → β) (i : Nat) (l : List α) :
    (tagFrom i l).map (fun p => g p.2) = l.map g := by
  have hc : (fun p : Nat × α => g p.2) = (g ∘ Prod.snd) := rfl
  rw [hc, ← List.map_map, tagFrom_map_snd]

theorem sorted_tag_fst_nodup (key : Nat × Obj → ℚ) (ts : List Obj) :
    ((sortByKey key (tagFrom 0 ts)).map Prod.fst).Nodup :=
  (((sortByKey_perm key (tagFrom 0 ts)).map Prod.fst).nodup_iff).mpr
    (tagFrom_fst_nodup 0 ts)

theorem sorted_tag_mem_lt (key : Nat × Obj → ℚ) {ts : List Obj} {p : Nat × Obj}
    (hp : p ∈ sortByKey key (tagFrom 0 ts)) : p.1 < ts.length := by
  have hmem : p ∈ tagFrom 0 ts := (sortByKey_perm key _).mem_iff.mp hp
  obtain ⟨k, hk, hj, _⟩ :=
    tagFrom_mem (show (p.1, p.2) ∈ tagFrom 0 ts by simpa using hmem)
  omega

theorem distLocSorted_length (a : Axis) (ts : List Obj) :
    (distLocSorted a ts).length = ts.length := by
  rw [distLocSorted, (sortByKey_perm _ _).length_eq, tagFrom_length]

theorem distLocSorted_ne_nil (a : Axis) {ts : List Obj} (h : ts ≠ []) :
    distLocSorted a ts ≠ [] :=
  sortByKey_ne_nil _ (tagFrom_ne_nil 0 h)

theorem distLocMin_eq (a : Axis) (ts : List Obj) (hne : ts ≠ []) :
    distLocMin a ts = listMin (ts.map (fun o => Vec3.coord a o.loc)) := by
  have hs0 : distLocSorted a ts ≠ [] := distLocSorted_ne_nil a hne
  have hkey := sorted_head_key (fun p : Nat × Obj => Vec3.coord a p.2.loc)
    (tagFrom 0 ts) hs0
  rw [tagFrom_map_comp (fun o => Vec3.coord a o.loc) 0 ts] at hkey
  rw [distLocMin, List.head?_eq_head hs0]
  exact hkey

theorem distLocMax_eq (a : Axis) (ts : List Obj) (hne : ts ≠ []) :
    distLocMax a ts = listMax (ts.map (fun o => Vec3.coord a o.loc)) := by
  have hs0 : distLocSorted a ts ≠ [] := distLocSorted_ne_nil a hne
  have hkey := sorted_getLast_key (fun p : Nat × Obj => Vec3.coord a p.2.loc)
    (tagFrom 0 ts) hs0
  rw [tagFrom_map_comp (fun o => Vec3.coord a o.loc) 0 ts] at hkey
  rw [distLocMax, List.getLast?_eq_getLast _ hs0]
  exact hkey

/-- C7: after `distribute(objects, axis, use_locations=True)` on at least
two objects, the objects' translation coordinates along the axis form an
arithmetic progression: ordered by original coordinate, the i-th object
sits at `min + i * (max - min) / (n - 1)` where `min` and `max` are the
least and greatest original coordinates; in particular the two extreme
objects do not move. -/
theorem distribute_locations_progression (a : Axis) (ts : List Obj)
    (h2 : 2 ≤ ts.length) :
    (∀ i p, (distLocSorted a ts).get? i = some p →
      (distribute a true ts).get? p.1 =
        some (setLocCoord a
          (distLocMin a ts + distLocInterval a ts * (i : ℚ)) p.2)) ∧
    distLocMin a ts = listMin (ts.map (fun o => Vec3.coord a o.loc)) ∧
    distLocInterval a ts =
      (listMax (ts.map (fun o => Vec3.coord a o.loc)) -
        listMin (ts.map (fun o => Vec3.coord a o.loc))) /
        ((ts.length : ℚ) - 1) ∧
    (∀ h0 : distLocSorted a ts ≠ [],
      (distribute a true ts).get? ((distLocSorted a ts).head h0).1 =
        some ((distLocSorted a ts).head h0).2 ∧
      (distribute a true ts).get? ((distLocSorted a ts).getLast h0).1 =
        some ((distLocSorted a ts).getLast h0).2) := by
  have hne : ts ≠ [] := by
    intro he
    rw [he] at h2
    simp at h2
  have hs0 : distLocSorted a ts ≠ [] := distLocSorted_ne_nil a hne
  have hout : distribute a true ts =
      restore ts
        ((tagFrom 0 (distLocSorted a ts)).map
          (fun q =>
            (q.2.1,
              setLocCoord a
                (distLocMin a ts + distLocInterval a ts * (q.1 : ℚ)) q.2.2))) := by
    unfold distribute
    rw [if_neg (by omega), if_pos rfl]
    rfl
  have hnd : (((tagFrom 0 (distLocSorted a ts)).map
      (fun q : Nat × (Nat × Obj) =>
        (q.2.1,
          setLocCoord a
            (distLocMin a ts + distLocInterval a ts * (q.1 : ℚ)) q.2.2))).map
        Prod.fst).Nodup := by
    rw [List.map_map]
    have hc : (Prod.fst ∘
        fun q : Nat × (Nat × Obj) =>
          (q.2.1,
            setLocCoord a
              (distLocMin a ts + distLocInterval a ts * (q.1 : ℚ)) q.2.2)) =
        (fun q : Nat × (Nat × Obj) => Prod.fst q.2) := rfl
    rw [hc, tagFrom_map_comp Prod.fst]
    exact sorted_tag_fst_nodup _ ts
  have hA : ∀ i p, (distLocSorted a ts).get? i = some p →
      (distribute a true ts).get? p.1 =
        some (setLocCoord a
          (distLocMin a ts + distLocInterval a ts * (i : ℚ)) p.2) := by
    intro i p hip
    rw [hout]
    have htag : (tagFrom 0 (distLocSorted a ts)).get? i = some (i, p) := by
      rw [tagFrom_get? 0 _ i, hip]
      simp
    have hmem : (i, p) ∈ tagFrom 0 (distLocSorted a ts) := List.get?_mem htag
    have hmem2 :
        (p.1, setLocCoord a
          (distLocMin a ts + distLocInterval a ts * (i : ℚ)) p.2) ∈
        (tagFrom 0 (distLocSorted a ts)).map
          (fun q =>
            (q.2.1,
              setLocCoord a
                (distLocMin a ts + distLocInterval a ts * (q.1 : ℚ)) q.2.2)) := by
      have := List.mem_map_of_mem
        (fun q : Nat × (Nat × Obj) =>
          (q.2.1,
            setLocCoord a
              (distLocMin a ts + distLocInterval a ts * (q.1 : ℚ)) q.2.2)) hmem
      simpa using this
    have hp1 : p.1 < ts.length :=
      sorted_tag_mem_lt _ (List.get?_mem hip)
    exact restore_get? ts _ hnd hmem2 hp1
  refine ⟨hA, distLocMin_eq a ts hne, ?_, ?_⟩
  · rw [distLocInterval, distLocMin_eq a ts hne, distLocMax_eq a ts hne]
  · intro h0
    have hne1 : ((ts.length : ℚ) - 1) ≠ 0 := by
      have hcast : (2 : ℚ) ≤ (ts.length : ℚ) := by exact_mod_cast h2
      linarith
    constructor
    · have hip : (distLocSorted a ts).get? 0 =
          some ((distLocSorted a ts).head h0) := by
        rw [List.get?_zero, List.head?_eq_head h0]
      have hthis := hA 0 _ hip
      have hv : distLocMin a ts + distLocInterval a ts * ((0 : Nat) : ℚ) =
          Vec3.coord a ((distLocSorted a ts).head h0).2.loc := by
        simp only [Nat.cast_zero, mul_zero, add_zero]
        rw [distLocMin, List.head?_eq_head h0]
      rw [hv] at hthis
      have hid : setLocCoord a
          (Vec3.coord a ((distLocSorted a ts).head h0).2.loc)
          ((distLocSorted a ts).head h0).2 =
          ((distLocSorted a ts).head h0).2 := by
        unfold setLocCoord
        rw [setCoord_coord_self]
      rw [hid] at hthis
      exact hthis
    · have hlen : (distLocSorted a ts).length = ts.length :=
        distLocSorted_length a ts
      have hip : (distLocSorted a ts).get? ((distLocSorted a ts).length - 1) =
          some ((distLocSorted a ts).getLast h0) := by
        rw [← List.getLast?_eq_get?, List.getLast?_eq_getLast _ h0]
      have hthis := hA _ _ hip
      have hcast : (((distLocSorted a ts).length - 1 : Nat) : ℚ) =
          (ts.length : ℚ) - 1 := by
        rw [hlen, Nat.cast_sub (by omega)]
        simp
      have hv : distLocMin a ts +
          distLocInterval a ts * (((distLocSorted a ts).length - 1 : Nat) : ℚ) =
          Vec3.coord a ((distLocSorted a ts).getLast h0).2.loc := by
        rw [hcast, distLocInterval, div_mul_cancel₀ _ hne1, distLocMax,
          List.getLast?_eq_getLast _ h0]
        ring
      rw [hv] at hthis
      have hid : setLocCoord a
          (Vec3.coord a ((distLocSorted a ts).getLast h0).2.loc)
          ((distLocSorted a ts).getLast h0).2 =
          ((distLocSorted a ts).getLast h0).2 := by
        unfold setLocCoord
        rw [setCoord_coord_self]
      rw [hid] at hthis
      exact hthis

/-- Witness for C7 on the concrete pair `[wObjB, wObjA]`. -/
theorem distribute_locations_progression_witness :
    distLocMin Axis.x [wObjB, wObjA] =
      listMin (([wObjB, wObjA] : List Obj).map (fun o => Vec3.coord Axis.x o.loc)) :=
  (distribute_locations_progression Axis.x [wObjB, wObjA] (by decide)).2.1

/-! ### Frame lemmas: only the chosen axis coordinate moves (C8) -/

theorem sorted_tag_lookup (key : Nat × Obj → ℚ) {ts : List Obj} {r : Nat × Obj}
    (hr : r ∈ sortByKey key (tagFrom 0 ts)) : ts.get? r.1 = some r.2 := by
  have hmem : r ∈ tagFrom 0 ts := (sortByKey_perm key _).mem_iff.mp hr
  obtain ⟨k, hk, hj, hget⟩ :=
    tagFrom_mem (show (r.1, r.2) ∈ tagFrom 0 ts by simpa using hmem)
  rw [hj, Nat.zero_add]
  exact hget

theorem distLoop_shape (a : Axis) (spo : ℚ) :
    ∀ (l : List (Nat × Obj)) (pm : ℚ) (p : Nat × Obj), p ∈ distLoop a spo pm l →
      ∃ q ∈ l, p.1 = q.1 ∧ ∃ d, p.2 = moveLoc a d q.2
  | [], _, _, h => absurd h (List.not_mem_nil _)
  | (j, o) :: rest, pm, p, h => by
      rcases List.mem_cons.mp h with he | hm
      · subst he
        exact ⟨(j, o), List.mem_cons_self _ _, rfl,
          spo - (axisMin a o - pm), rfl⟩
      · obtain ⟨q, hq, h1, d, h2⟩ := distLoop_shape a spo rest _ p hm
        exact ⟨q, List.mem_cons_of_mem _ hq, h1, d, h2⟩

theorem restore_frame (a : Axis) (ts : List Obj) (assigned : List (Nat × Obj))
    (hshape : ∀ p ∈ assigned, ∃ o, ts.get? p.1 = some o ∧
      p.2.verts = o.verts ∧
      ∀ b, b ≠ a → Vec3.coord b p.2.loc = Vec3.coord b o.loc) :
    (restore ts assigned).length = ts.length ∧
    ∀ j o', (restore ts assigned).get? j = some o' →
      ∃ o, ts.get? j = some o ∧ o'.verts = o.verts ∧
        ∀ b, b ≠ a → Vec3.coord b o'.loc = Vec3.coord b o.loc := by
  refine ⟨restore_length ts assigned, ?_⟩
  intro j o' hj
  have hjlt : j < ts.length := by
    have hlt := List.get?_eq_some.mp hj
    obtain ⟨hbound, _⟩ := hlt
    rwa [restore_length] at hbound
  unfold restore at hj
  rw [List.get?_map, tagFrom_get? 0 ts j, List.get?_eq_get hjlt] at hj
  simp only [Option.map_some', Option.some.injEq, Nat.zero_add] at hj
  cases hcase : lookupTag j assigned with
  | none =>
    rw [hcase] at hj
    simp only [Option.getD_none] at hj
    subst hj
    exact ⟨ts.get ⟨j, hjlt⟩, List.get?_eq_get hjlt, rfl, fun _ _ => rfl⟩
  | some x =>
    rw [hcase] at hj
    obtain ⟨o, ho, hv, hc⟩ := hshape (j, x) (lookupTag_mem hcase)
    subst hj
    exact ⟨o, ho, hv, hc⟩

theorem map_get?_frame (a : Axis) (g : Obj → Obj)
    (hg : ∀ o, (g o).verts = o.verts ∧
      ∀ b, b ≠ a → Vec3.coord b (g o).loc = Vec3.coord b o.loc)
    (ts : List Obj) :
    (ts.map g).length = ts.length ∧
    ∀ j o', (ts.map g).get? j = some o' →
      ∃ o, ts.get? j = some o ∧ o'.verts = o.verts ∧
        ∀ b, b ≠ a → Vec3.coord b o'.loc = Vec3.coord b o.loc := by
  refine ⟨by simp, ?_⟩
  intro j o' hj
  rw [List.get?_map] at hj
  cases hts : ts.get? j with
  | none =>
    rw [hts] at hj
    cases hj
  | some o =>
    rw [hts] at hj
    simp only [Option.map_some', Option.some.injEq] at hj
    subst hj
    exact ⟨o, rfl, (hg o).1, (hg o).2⟩

theorem id_get?_frame (a : Axis) (ts : List Obj) :
    ts.length = ts.length ∧
    ∀ j o', ts.get? j = some o' →
      ∃ o, ts.get? j = some o ∧ o'.verts = o.verts ∧
        ∀ b, b ≠ a → Vec3.coord b o'.loc = Vec3.coord b o.loc :=
  ⟨rfl, fun _ o' hj => ⟨o', hj, rfl, fun _ _ => rfl⟩⟩

/-- C8: `align`, `alignTo` and `distribute` with axis `a` modify only the
`a`-coordinate of each target's position: target lists keep their length
and order, every output object keeps its vertices and its coordinates on
the other two axes.  (Objects outside the target list are never touched:
all three functions read and write only the resolved target list.) -/
theorem only_axis_coordinate_modified (a : Axis) (mode : AlignmentMode)
    (ul : Bool) (tgt : Obj) (ts : List Obj) :
    ((align a mode ul ts).length = ts.length ∧
      ∀ j o', (align a mode ul ts).get? j = some o' →
        ∃ o, ts.get? j = some o ∧ o'.verts = o.verts ∧
          ∀ b, b ≠ a → Vec3.coord b o'.loc = Vec3.coord b o.loc) ∧
    ((alignTo a tgt ts).length = ts.length ∧
      ∀ j o', (alignTo a tgt ts).get? j = some o' →
        ∃ o, ts.get? j = some o ∧ o'.verts = o.verts ∧
          ∀ b, b ≠ a → Vec3.coord b o'.loc = Vec3.coord b o.loc) ∧
    ((distribute a ul ts).length = ts.length ∧
      ∀ j o', (distribute a ul ts).get? j = some o' →
        ∃ o, ts.get? j = some o ∧ o'.verts = o.verts ∧
          ∀ b, b ≠ a → Vec3.coord b o'.loc = Vec3.coord b o.loc) := by
  refine ⟨?_, ?_, ?_⟩
  · by_cases hts : ts = []
    · subst hts
      simp only [align, if_pos rfl]
      exact id_get?_frame a []
    · cases ul with
      | false =>
        rw [align_eq_map a mode ts hts]
        exact map_get?_frame a
          (fun o => moveLoc a (alignTargetValue mode a ts - keyValue mode a o) o)
          (fun o => ⟨rfl, fun b hb => coord_moveLoc_ne hb _ o⟩) ts
      | true =>
        rw [align_loc_eq_map a mode ts hts]
        exact map_get?_frame a
          (fun o => { o with loc := Vec3.setCoord a (alignTargetValueLoc mode a ts) o.loc })
          (fun o => ⟨rfl, fun b hb => coord_setCoord_ne hb _ o.loc⟩) ts
  · by_cases hts : ts = []
    · subst hts
      simp only [alignTo, if_pos rfl]
      exact id_get?_frame a []
    · have he : alignTo a tgt ts =
          ts.map (moveLoc a (Vec3.coord a tgt.loc -
            (ts.map (fun o => Vec3.coord a o.loc)).sum / ts.length)) := by
        unfold alignTo
        rw [if_neg hts]
      rw [he]
      exact map_get?_frame a
        (moveLoc a (Vec3.coord a tgt.loc -
          (ts.map (fun o => Vec3.coord a o.loc)).sum / ts.length))
        (fun o => ⟨rfl, fun b hb => coord_moveLoc_ne hb _ o⟩) ts
  · by_cases hlen : ts.length < 2
    · unfold distribute
      rw [if_pos hlen]
      exact ⟨by trivial, fun _ o' hj => ⟨o', hj, rfl, fun _ _ => rfl⟩⟩
    · cases ul with
      | false =>
        unfold distribute
        rw [if_neg hlen, if_neg Bool.false_ne_true]
        cases hcase : distBoxSorted a ts with
        | nil =>
          simp only [distributeBoxes, hcase]
          exact ⟨by trivial, fun _ o' hj => ⟨o', hj, rfl, fun _ _ => rfl⟩⟩
        | cons first rest =>
          simp only [distributeBoxes, hcase]
          apply restore_frame
          intro p hp
          rcases List.mem_cons.mp hp with he | hm
          · subst he
            refine ⟨p.2,
              sorted_tag_lookup (fun r : Nat × Obj => axisMin a r.2) ?_, rfl,
              fun _ _ => rfl⟩
            rw [show sortByKey (fun r : Nat × Obj => axisMin a r.2) (tagFrom 0 ts) =
              distBoxSorted a ts from rfl, hcase]
            exact List.mem_cons_self _ _
          · obtain ⟨q, hq, h1, d, h2⟩ :=
              distLoop_shape a (distBoxSpo a ts) rest (axisMax a first.2) p hm
            have hmem : q ∈ distBoxSorted a ts := by
              rw [hcase]
              exact List.mem_cons_of_mem _ hq
            refine ⟨q.2, ?_, ?_, ?_⟩
            · rw [h1]
              exact sorted_tag_lookup (fun r : Nat × Obj => axisMin a r.2) hmem
            · rw [h2]
              rfl
            · intro b hb
              rw [h2]
              exact coord_moveLoc_ne hb d q.2
      | true =>
        unfold distribute
        rw [if_neg hlen, if_pos rfl]
        unfold distributeLoc
        apply restore_frame
        intro p hp
        obtain ⟨q, hq, rfl⟩ := List.mem_map.mp hp
        have hq2 : q.2 ∈ distLocSorted a ts := by
          obtain ⟨k, hk, hj, hget⟩ := tagFrom_mem
            (show (q.1, q.2) ∈ tagFrom 0 (distLocSorted a ts) by simpa using hq)
          exact List.get?_mem hget
        refine ⟨q.2.2,
          sorted_tag_lookup (fun r : Nat × Obj => Vec3.coord a r.2.loc) hq2, rfl,
          ?_⟩
        intro b hb
        exact coord_setCoord_ne hb _ _

/-- Witness for C8 on a concrete pair: the y coordinate survives a
distribute call along x. -/
theorem only_axis_coordinate_modified_witness :
    (distribute Axis.x false [wObjA, wObjB]).length =
      ([wObjA, wObjB] : List Obj).length :=
  (only_axis_coordinate_modified Axis.x AlignmentMode.center false wObjA
    [wObjA, wObjB]).2.2.1

/-! ### Axis validation (`validate_axis` and the public entry points) -/

/-- `validate_axis` from `align.py`: raise `ValueError` (modelled as
`Except.error`) whenever the axis string is not one of "x", "y", "z". -/
def validate_axis (axis : String) : Except String Unit :=
  if axis ∈ (["x", "y", "z"] : List String) then Except.ok ()
  else Except.error ("Invalid axis: " ++ axis)

/-- The axis named by a validated axis string. -/
def toAxis (axis : String) : Axis :=
  if axis = "x" then Axis.x else if axis = "y" then Axis.y else Axis.z

/-- `align` as called with an axis string: validation runs first, so an
invalid axis raises before any object is touched. -/
def alignE (targets : List Obj) (axis : String) (mode : AlignmentMode)
    (use_locations : Bool) : Except String (List Obj) :=
  match validate_axis axis with
  | Except.error e => Except.error e
  | Except.ok _ => Except.ok (align (toAxis axis) mode use_locations targets)

/-- `alignTo` as called with an axis string. -/
def alignToE (target : Obj) (objects : List Obj) (axis : String) :
    Except String (List Obj) :=
  match validate_axis axis with
  | Except.error e => Except.error e
  | Except.ok _ => Except.ok (alignTo (toAxis axis) target objects)

/-- `distribute` as called with an axis string. -/
def distributeE (targets : List Obj) (axis : String) (use_locations : Bool) :
    Except String (List Obj) :=
  match validate_axis axis with
  | Except.error e => Except.error e
  | Except.ok _ => Except.ok (distribute (toAxis axis) use_locations targets)

/-- C9: for every axis string outside x, y, z, `align`, `alignTo` and
`distribute` raise `ValueError` before modifying any object (the axis is
validated first); for a valid axis, `align` with an empty target list and
`distribute` with fewer than two targets return normally leaving every
object unchanged. -/
theorem axis_validation_spec (axis : String) (ts : List Obj) (tgt : Obj)
    (mode : AlignmentMode) (ul : Bool) :
    (axis ≠ "x" → axis ≠ "y" → axis ≠ "z" →
      alignE ts axis mode ul = Except.error ("Invalid axis: " ++ axis) ∧
      alignToE tgt ts axis = Except.error ("Invalid axis: " ++ axis) ∧
      distributeE ts axis ul = Except.error ("Invalid axis: " ++ axis)) ∧
    ((axis = "x" ∨ axis = "y" ∨ axis = "z") →
      alignE [] axis mode ul = Except.ok [] ∧
      (ts.length < 2 → distributeE ts axis ul = Except.ok ts)) := by
  constructor
  · intro hx hy hz
    have hv : validate_axis axis = Except.error ("Invalid axis: " ++ axis) := by
      unfold validate_axis
      rw [if_neg]
      intro hmem
      simp only [List.mem_cons, List.mem_singleton, List.not_mem_nil,
        or_false] at hmem
      rcases hmem with h | h | h
      · exact hx h
      · exact hy h
      · exact hz h
    refine ⟨?_, ?_, ?_⟩ <;> simp [alignE, alignToE, distributeE, hv]
  · intro hmem
    have hv : validate_axis axis = Except.ok () := by
      unfold validate_axis
      rw [if_pos]
      rcases hmem with h | h | h <;> simp [h]
    constructor
    · simp [alignE, hv, align]
    · intro hlt
      simp [distributeE, hv, distribute, if_pos hlt]

/-- Witness for C9: axis "w" is rejected, axis "x" with too few targets is
a no-op. -/
theorem axis_validation_spec_witness :
    alignE [wObjA] "w" AlignmentMode.center false =
      Except.error ("Invalid axis: " ++ "w") ∧
    alignE [] "x" AlignmentMode.center false = Except.ok [] ∧
    distributeE [wObjA] "x" false = Except.ok [wObjA] := by
  have hbad := (axis_validation_spec "w" [wObjA] wObjA AlignmentMode.center
    false).1 (by decide) (by decide) (by decide)
  have hgood := (axis_validation_spec "x" [wObjA] wObjA AlignmentMode.center
    false).2 (Or.inl rfl)
  exact ⟨hbad.1, hgood.1, hgood.2 (by decide)⟩

/-! ### The bounding-box distribution loop (C2) -/

theorem listMin_le_listMax {l : List ℚ} (h : l ≠ []) : listMin l ≤ listMax l :=
  le_trans (listMin_le (List.head_mem h)) (le_listMax (List.head_mem h))

theorem axisMin_le_axisMax (a : Axis) (o : Obj) (h : o.verts ≠ []) :
    axisMin a o ≤ axisMax a o := by
  rw [axisMin_eq, axisMax_eq]
  exact listMin_le_listMax (by simpa using h)

theorem distLoop_map_fst (a : Axis) (spo : ℚ) :
    ∀ (pm : ℚ) (l : List (Nat × Obj)),
      (distLoop a spo pm l).map Prod.fst = l.map Prod.fst
  | _, [] => rfl
  | pm, (j, o) :: rest => by
      simp only [distLoop, List.map_cons]
      rw [distLoop_map_fst a spo _ rest]

theorem distLoop_length (a : Axis) (spo : ℚ) (pm : ℚ) (l : List (Nat × Obj)) :
    (distLoop a spo pm l).length = l.length := by
  have := congrArg List.length (distLoop_map_fst a spo pm l)
  simpa using this

theorem distLoop_get?_chain (a : Axis) (spo : ℚ) :
    ∀ (l : List (Nat × Obj)) (pm : ℚ), (∀ p ∈ l, p.2.verts ≠ []) →
      (∀ p, (distLoop a spo pm l).get? 0 = some p →
        axisMin a p.2 = pm + spo) ∧
      (∀ k p q, (distLoop a spo pm l).get? k = some p →
        (distLoop a spo pm l).get? (k + 1) = some q →
        axisMin a q.2 = axisMax a p.2 + spo)
  | [], pm, _ => by
      constructor
      · intro p hp
        simp [distLoop] at hp
      · intro k p q hp _
        simp [distLoop] at hp
  | (j, o) :: rest, pm, hv => by
      have hvo : o.verts ≠ [] := hv (j, o) (List.mem_cons_self _ _)
      have hvrest : ∀ p ∈ rest, p.2.verts ≠ [] :=
        fun p hp => hv p (List.mem_cons_of_mem _ hp)
      obtain ⟨ihA, ihB⟩ := distLoop_get?_chain a spo rest
        (axisMax a o + (spo - (axisMin a o - pm))) hvrest
      constructor
      · intro p hp
        simp only [distLoop, List.get?_cons_zero, Option.some.injEq] at hp
        rw [← hp]
        rw [axisMin_moveLoc_same a _ o hvo]
        ring
      · intro k p q hp hq
        cases k with
        | zero =>
          simp only [distLoop, List.get?_cons_zero, List.get?_cons_succ,
            Option.some.injEq] at hp hq
          rw [ihA q hq, ← hp]
          rw [axisMax_moveLoc_same a _ o hvo]
        | succ k =>
          simp only [distLoop, List.get?_cons_succ] at hp hq
          exact ihB k p q hp hq

theorem distLoop_bounds (a : Axis) (spo : ℚ) (hspo : 0 ≤ spo) :
    ∀ (l : List (Nat × Obj)) (pm : ℚ), (∀ p ∈ l, p.2.verts ≠ []) →
      ∀ p ∈ distLoop a spo pm l,
        pm + spo ≤ axisMin a p.2 ∧
        axisMax a p.2 ≤
          pm + (l.map (fun r => axisMax a r.2 - axisMin a r.2)).sum +
            (l.length : ℚ) * spo
  | [], _, _, p, hp => absurd hp (List.not_mem_nil p)
  | (j, o) :: rest, pm, hv, p, hp => by
      have hvo : o.verts ≠ [] := hv (j, o) (List.mem_cons_self _ _)
      have hvrest : ∀ r ∈ rest, r.2.verts ≠ [] :=
        fun r hr => hv r (List.mem_cons_of_mem _ hr)
      have heo : axisMin a o ≤ axisMax a o := axisMin_le_axisMax a o hvo
      have hrestE : 0 ≤ (rest.map (fun r => axisMax a r.2 - axisMin a r.2)).sum := by
        apply List.sum_nonneg
        intro x hx
        obtain ⟨r, hr, rfl⟩ := List.mem_map.mp hx
        have := axisMin_le_axisMax a r.2 (hvrest r hr)
        linarith
      have hlenpos : (0 : ℚ) ≤ (rest.length : ℚ) * spo :=
        mul_nonneg (Nat.cast_nonneg _) hspo
      rcases List.mem_cons.mp hp with he | hm
      · subst he
        constructor
        · rw [axisMin_moveLoc_same a _ o hvo]
          linarith
        · rw [axisMax_moveLoc_same a _ o hvo]
          simp only [List.map_cons, List.sum_cons, List.length_cons]
          push_cast
          linarith
      · obtain ⟨h1, h2⟩ := distLoop_bounds a spo hspo rest
          (axisMax a o + (spo - (axisMin a o - pm))) hvrest p hm
        constructor
        · linarith
        · simp only [List.map_cons, List.sum_cons, List.length_cons]
          push_cast
          linarith

theorem distLoop_max_attained (a : Axis) (spo : ℚ) :
    ∀ (l : List (Nat × Obj)) (pm : ℚ), l ≠ [] → (∀ p ∈ l, p.2.verts ≠ []) →
      ∃ p ∈ distLoop a spo pm l,
        axisMax a p.2 =
          pm + (l.map (fun r => axisMax a r.2 - axisMin a r.2)).sum +
            (l.length : ℚ) * spo
  | [], _, h, _ => absurd rfl h
  | [(j, o)], pm, _, hv => by
      refine ⟨(j, moveLoc a (spo - (axisMin a o - pm)) o),
        List.mem_cons_self _ _, ?_⟩
      rw [axisMax_moveLoc_same a _ o (hv (j, o) (List.mem_cons_self _ _))]
      simp
      ring
  | (j, o) :: (j2, o2) :: rest, pm, _, hv => by
      have hvtail : ∀ p ∈ (j2, o2) :: rest, p.2.verts ≠ [] :=
        fun p hp => hv p (List.mem_cons_of_mem _ hp)
      obtain ⟨p, hp1, hp2⟩ := distLoop_max_attained a spo ((j2, o2) :: rest)
        (axisMax a o + (spo - (axisMin a o - pm))) (List.cons_ne_nil _ _) hvtail
      refine ⟨p, List.mem_cons_of_mem _ hp1, ?_⟩
      rw [hp2]
      simp only [List.map_cons, List.sum_cons, List.length_cons]
      push_cast
      ring

theorem restore_mem {α : Type _} {ts : List α} {A : List (Nat × α)} {x : α}
    (hx : x ∈ restore ts A) : (∃ p ∈ A, x = p.2) ∨ x ∈ ts := by
  unfold restore at hx
  obtain ⟨p, hp, hpx⟩ := List.mem_map.mp hx
  cases hc : lookupTag p.1 A with
  | none =>
    right
    rw [hc] at hpx
    simp only [Option.getD_none] at hpx
    rw [← hpx]
    have : p.2 ∈ (tagFrom 0 ts).map Prod.snd := List.mem_map_of_mem Prod.snd hp
    rwa [tagFrom_map_snd] at this
  | some y =>
    left
    rw [hc] at hpx
    simp only [Option.getD_some] at hpx
    exact ⟨(p.1, y), lookupTag_mem hc, hpx.symm⟩

theorem distBoxSorted_length (a : Axis) (ts : List Obj) :
    (distBoxSorted a ts).length = ts.length := by
  rw [distBoxSorted, (sortByKey_perm _ _).length_eq, tagFrom_length]

/-- C2 (amended): for at least two objects whose combined extent does not
exceed the overall span (equivalently, the computed per-gap spacing is
nonnegative), after `distribute(objects, axis)` with `use_locations=False`,
consecutive bounding boxes in the order sorted by original minimum edge are
separated by the equal gap `(span - sum of extents) / (n - 1)`, and the
overall minimum and maximum bounding-box edges along the axis are
unchanged. -/
theorem distribute_boxes_spec (a : Axis) (ts : List Obj) (h2 : 2 ≤ ts.length)
    (hv : ∀ o ∈ ts, o.verts ≠ []) (hspo : 0 ≤ distBoxSpo a ts) :
    (∀ k p q, (distBoxSorted a ts).get? k = some p →
      (distBoxSorted a ts).get? (k + 1) = some q →
      ∃ op oq, (distribute a false ts).get? p.1 = some op ∧
        (distribute a false ts).get? q.1 = some oq ∧
        axisMin a oq - axisMax a op = distBoxSpo a ts) ∧
    distBoxSpo a ts =
      (listMax (ts.map (axisMax a)) - listMin (ts.map (axisMin a)) -
        (ts.map (fun o => axisMax a o - axisMin a o)).sum) /
        ((ts.length : ℚ) - 1) ∧
    listMin ((distribute a false ts).map (axisMin a)) =
      listMin (ts.map (axisMin a)) ∧
    listMax ((distribute a false ts).map (axisMax a)) =
      listMax (ts.map (axisMax a)) := by
  have hne : ts ≠ [] := by
    intro he
    rw [he] at h2
    simp at h2
  have hlen2 : ¬ ts.length < 2 := by omega
  have hd0 : distBoxSorted a ts ≠ [] := sortByKey_ne_nil _ (tagFrom_ne_nil 0 hne)
  have hvd : ∀ p ∈ distBoxSorted a ts, p.2.verts ≠ [] := by
    intro p hp
    have hl := sorted_tag_lookup (fun r : Nat × Obj => axisMin a r.2) hp
    exact hv p.2 (List.get?_mem hl)
  have hperm : (distBoxSorted a ts).Perm (tagFrom 0 ts) := sortByKey_perm _ _
  have hmapmin : ((distBoxSorted a ts).map (fun p => axisMin a p.2)).Perm
      (ts.map (axisMin a)) := by
    have h1 := hperm.map (fun p : Nat × Obj => axisMin a p.2)
    rwa [tagFrom_map_comp (axisMin a) 0 ts] at h1
  have hmapmax : ((distBoxSorted a ts).map (fun p => axisMax a p.2)).Perm
      (ts.map (axisMax a)) := by
    have h1 := hperm.map (fun p : Nat × Obj => axisMax a p.2)
    rwa [tagFrom_map_comp (axisMax a) 0 ts] at h1
  have hmapext : ((distBoxSorted a ts).map
      (fun p => axisMax a p.2 - axisMin a p.2)).Perm
      (ts.map (fun o => axisMax a o - axisMin a o)) := by
    have h1 := hperm.map (fun p : Nat × Obj => axisMax a p.2 - axisMin a p.2)
    rwa [tagFrom_map_comp (fun o => axisMax a o - axisMin a o) 0 ts] at h1
  have hminE : listMin ((distBoxSorted a ts).map (fun p => axisMin a p.2)) =
      listMin (ts.map (axisMin a)) :=
    listMin_perm hmapmin (by simpa using hd0)
  have hmaxE : listMax ((distBoxSorted a ts).map (fun p => axisMax a p.2)) =
      listMax (ts.map (axisMax a)) :=
    listMax_perm hmapmax (by simpa using hd0)
  have hsumE : ((distBoxSorted a ts).map
      (fun p => axisMax a p.2 - axisMin a p.2)).sum =
      (ts.map (fun o => axisMax a o - axisMin a o)).sum := hmapext.sum_eq
  have hC2 : distBoxSpo a ts =
      (listMax (ts.map (axisMax a)) - listMin (ts.map (axisMin a)) -
        (ts.map (fun o => axisMax a o - axisMin a o)).sum) /
        ((ts.length : ℚ) - 1) := by
    simp only [distBoxSpo]
    rw [hminE, hmaxE, hsumE]
  have hpair := sortByKey_pairwise (fun r : Nat × Obj => axisMin a r.2)
    (tagFrom 0 ts)
  have hdlen := distBoxSorted_length a ts
  have hne1 : ((ts.length : ℚ) - 1) ≠ 0 := by
    have hcast : (2 : ℚ) ≤ (ts.length : ℚ) := by exact_mod_cast h2
    linarith
  cases hcase : distBoxSorted a ts with
  | nil => exact absurd hcase hd0
  | cons first rest =>
    rw [hcase] at hvd hminE hmaxE hsumE hdlen
    rw [show sortByKey (fun r : Nat × Obj => axisMin a r.2) (tagFrom 0 ts) =
      distBoxSorted a ts from rfl, hcase] at hpair
    rcases List.pairwise_cons.mp hpair with ⟨hfirstle, _⟩
    have hmemdata : ∀ r ∈ first :: rest,
        r ∈ sortByKey (fun r : Nat × Obj => axisMin a r.2) (tagFrom 0 ts) := by
      intro r hr
      rw [show sortByKey (fun r : Nat × Obj => axisMin a r.2) (tagFrom 0 ts) =
        distBoxSorted a ts from rfl, hcase]
      exact hr
    have hvfirst : first.2.verts ≠ [] := hvd first (List.mem_cons_self _ _)
    have hvrest : ∀ p ∈ rest, p.2.verts ≠ [] :=
      fun p hp => hvd p (List.mem_cons_of_mem _ hp)
    have hout : distribute a false ts =
        restore ts
          (first :: distLoop a (distBoxSpo a ts) (axisMax a first.2) rest) := by
      unfold distribute
      rw [if_neg hlen2, if_neg Bool.false_ne_true]
      simp only [distributeBoxes, hcase]
    have hndA : ((first :: distLoop a (distBoxSpo a ts) (axisMax a first.2)
        rest).map Prod.fst).Nodup := by
      simp only [List.map_cons, distLoop_map_fst]
      have h1 := sorted_tag_fst_nodup (fun r : Nat × Obj => axisMin a r.2) ts
      rw [show sortByKey (fun r : Nat × Obj => axisMin a r.2) (tagFrom 0 ts) =
        distBoxSorted a ts from rfl, hcase] at h1
      simpa using h1
    have hboundA : ∀ p ∈ first :: distLoop a (distBoxSpo a ts)
        (axisMax a first.2) rest, p.1 < ts.length := by
      intro p hp
      rcases List.mem_cons.mp hp with he | hm
      · subst he
        exact sorted_tag_mem_lt _ (hmemdata p (List.mem_cons_self _ _))
      · obtain ⟨q, hq, h1, d, h2⟩ :=
          distLoop_shape a (distBoxSpo a ts) rest (axisMax a first.2) p hm
        rw [h1]
        exact sorted_tag_mem_lt _ (hmemdata q (List.mem_cons_of_mem _ hq))
    have hlook : ∀ p ∈ first :: distLoop a (distBoxSpo a ts)
        (axisMax a first.2) rest,
        (distribute a false ts).get? p.1 = some p.2 := by
      intro p hp
      rw [hout]
      exact restore_get? ts _ hndA (show (p.1, p.2) ∈ _ by simpa using hp)
        (hboundA p hp)
    have hloopchain := distLoop_get?_chain a (distBoxSpo a ts) rest
      (axisMax a first.2) hvrest
    have hchain : ∀ k s t,
        (first :: distLoop a (distBoxSpo a ts) (axisMax a first.2) rest).get? k =
          some s →
        (first :: distLoop a (distBoxSpo a ts) (axisMax a first.2) rest).get?
          (k + 1) = some t →
        axisMin a t.2 = axisMax a s.2 + distBoxSpo a ts := by
      intro k s t hs ht
      cases k with
      | zero =>
        rw [List.get?_cons_zero] at hs
        obtain rfl := Option.some.inj hs
        rw [List.get?_cons_succ] at ht
        exact hloopchain.1 t ht
      | succ k =>
        rw [List.get?_cons_succ] at hs ht
        exact hloopchain.2 k s t hs ht
    have hlenA : (first :: distLoop a (distBoxSpo a ts) (axisMax a first.2)
        rest).length = (first :: rest).length := by
      simp [distLoop_length]
    have hAk : ∀ k r, (first :: rest).get? k = some r →
        ∃ s, (first :: distLoop a (distBoxSpo a ts) (axisMax a first.2)
          rest).get? k = some s ∧ s.1 = r.1 := by
      intro k r hr
      have hk : k < (first :: rest).length := (List.get?_eq_some.mp hr).1
      have hk' : k < (first :: distLoop a (distBoxSpo a ts) (axisMax a first.2)
          rest).length := by
        rw [hlenA]
        exact hk
      refine ⟨(first :: distLoop a (distBoxSpo a ts) (axisMax a first.2)
        rest).get ⟨k, hk'⟩, List.get?_eq_get hk', ?_⟩
      have hfst : ((first :: distLoop a (distBoxSpo a ts) (axisMax a first.2)
          rest).map Prod.fst) = ((first :: rest).map Prod.fst) := by
        simp [distLoop_map_fst]
      have hcongr := congrArg (fun l => l.get? k) hfst
      simp only [List.get?_map] at hcongr
      rw [List.get?_eq_get hk', hr] at hcongr
      simpa using hcongr
    have hfirstmin : axisMin a first.2 = listMin (ts.map (axisMin a)) := by
      rw [← hminE]
      symm
      apply listMin_eq_of
      · exact List.mem_map_of_mem _ (List.mem_cons_self _ _)
      · intro x hx
        obtain ⟨r, hr, rfl⟩ := List.mem_map.mp hx
        rcases List.mem_cons.mp hr with rfl | hr
        · exact le_refl _
        · exact hfirstle r hr
    have hfirstmem : first.2 ∈ ts :=
      List.get?_mem (sorted_tag_lookup (fun r : Nat × Obj => axisMin a r.2)
        (hmemdata first (List.mem_cons_self _ _)))
    refine ⟨?_, hC2, ?_, ?_⟩
    · intro k p q hp hq
      obtain ⟨s, hsk, hs1⟩ := hAk k p hp
      obtain ⟨t, htk, ht1⟩ := hAk (k + 1) q hq
      refine ⟨s.2, t.2, ?_, ?_, ?_⟩
      · rw [← hs1]
        exact hlook s (List.get?_mem hsk)
      · rw [← ht1]
        exact hlook t (List.get?_mem htk)
      · have := hchain k s t hsk htk
        linarith
    · apply listMin_eq_of
      · have hm1 : first.2 ∈ distribute a false ts :=
          List.get?_mem (hlook first (List.mem_cons_self _ _))
        have := List.mem_map_of_mem (axisMin a) hm1
        rwa [hfirstmin] at this
      · intro x hx
        obtain ⟨o', ho', rfl⟩ := List.mem_map.mp hx
        rw [hout] at ho'
        rcases restore_mem ho' with ⟨p, hpA, rfl⟩ | hots
        · rcases List.mem_cons.mp hpA with rfl | hm
          · exact le_of_eq hfirstmin.symm
          · have hb := (distLoop_bounds a (distBoxSpo a ts) hspo rest
              (axisMax a first.2) hvrest p hm).1
            have he1 : axisMin a first.2 ≤ axisMax a first.2 :=
              axisMin_le_axisMax a first.2 hvfirst
            rw [← hfirstmin]
            linarith
        · exact listMin_le (List.mem_map_of_mem (axisMin a) hots)
    · have hrestne : rest ≠ [] := by
        intro he
        rw [he] at hdlen
        simp at hdlen
        omega
      have hrestlen : ((rest.length : ℚ)) = (ts.length : ℚ) - 1 := by
        have : rest.length = ts.length - 1 := by
          simp at hdlen
          omega
        rw [this, Nat.cast_sub (by omega)]
        simp
      have hspo_mul : distBoxSpo a ts * ((ts.length : ℚ) - 1) =
          listMax (ts.map (axisMax a)) - listMin (ts.map (axisMin a)) -
            (ts.map (fun o => axisMax a o - axisMin a o)).sum := by
        rw [hC2, div_mul_cancel₀ _ hne1]
      have hsum_split : (ts.map (fun o => axisMax a o - axisMin a o)).sum =
          (axisMax a first.2 - axisMin a first.2) +
            (rest.map (fun p => axisMax a p.2 - axisMin a p.2)).sum := by
        rw [← hsumE]
        simp
      obtain ⟨p, hpmem, hpeq⟩ := distLoop_max_attained a (distBoxSpo a ts) rest
        (axisMax a first.2) hrestne hvrest
      have hpval : axisMax a p.2 = listMax (ts.map (axisMax a)) := by
        rw [hpeq, hrestlen]
        have := hspo_mul
        have := hfirstmin
        nlinarith [hspo_mul, hfirstmin, hsum_split]
      apply listMax_eq_of
      · have hm1 : p.2 ∈ distribute a false ts :=
          List.get?_mem (hlook p (List.mem_cons_of_mem _ hpmem))
        have := List.mem_map_of_mem (axisMax a) hm1
        rwa [hpval] at this
      · intro x hx
        obtain ⟨o', ho', rfl⟩ := List.mem_map.mp hx
        rw [hout] at ho'
        rcases restore_mem ho' with ⟨r, hrA, rfl⟩ | hots
        · rcases List.mem_cons.mp hrA with rfl | hm
          · exact le_listMax (List.mem_map_of_mem (axisMax a) hfirstmem)
          · have hb := (distLoop_bounds a (distBoxSpo a ts) hspo rest
              (axisMax a first.2) hvrest r hm).2
            have hVeq : axisMax a first.2 +
                (rest.map (fun q => axisMax a q.2 - axisMin a q.2)).sum +
                (rest.length : ℚ) * distBoxSpo a ts =
                listMax (ts.map (axisMax a)) := by
              rw [hrestlen]
              nlinarith [hspo_mul, hfirstmin, hsum_split]
            linarith
        · exact le_listMax (List.mem_map_of_mem (axisMax a) hots)

/-- Counterexample object: bounding box [0, 10] on the x axis. -/
def cObjA : Obj := ⟨⟨0, 0, 0⟩, [⟨0, 0, 0⟩, ⟨10, 0, 0⟩]⟩

/-- Counterexample object: bounding box [1, 4] on the x axis. -/
def cObjB : Obj := ⟨⟨0, 0, 0⟩, [⟨1, 0, 0⟩, ⟨4, 0, 0⟩]⟩

/-- Counterexample object: bounding box [2, 3] on the x axis. -/
def cObjC : Obj := ⟨⟨0, 0, 0⟩, [⟨2, 0, 0⟩, ⟨3, 0, 0⟩]⟩

/-- C2 as stated fails: with overlapping boxes [0,10], [1,4], [2,3] the
computed spacing is -2 and distributing moves the second box to [8,11], so
the overall maximum bounding-box edge grows from 10 to 11. -/
theorem distribute_boxes_counterexample :
    listMax ((distribute Axis.x false [cObjA, cObjB, cObjC]).map
        (axisMax Axis.x)) ≠
      listMax (([cObjA, cObjB, cObjC] : List Obj).map (axisMax Axis.x)) := by
  have hminA : axisMin Axis.x cObjA = 0 := by
    norm_num [axisMin, bounding_box, worldVerts, listMin, Vec3.coord, cObjA,
      min_def]
  have hminB : axisMin Axis.x cObjB = 1 := by
    norm_num [axisMin, bounding_box, worldVerts, listMin, Vec3.coord, cObjB,
      min_def]
  have hminC : axisMin Axis.x cObjC = 2 := by
    norm_num [axisMin, bounding_box, worldVerts, listMin, Vec3.coord, cObjC,
      min_def]
  have hmaxA : axisMax Axis.x cObjA = 10 := by
    norm_num [axisMax, bounding_box, worldVerts, listMax, Vec3.coord, cObjA,
      max_def]
  have hmaxB : axisMax Axis.x cObjB = 4 := by
    norm_num [axisMax, bounding_box, worldVerts, listMax, Vec3.coord, cObjB,
      max_def]
  have hmaxC : axisMax Axis.x cObjC = 3 := by
    norm_num [axisMax, bounding_box, worldVerts, listMax, Vec3.coord, cObjC,
      max_def]
  have hsorted : distBoxSorted Axis.x [cObjA, cObjB, cObjC] =
      [(0, cObjA), (1, cObjB), (2, cObjC)] := by
    norm_num [distBoxSorted, sortByKey, insertByKey, tagFrom, hminA, hminB,
      hminC]
  have hspo : distBoxSpo Axis.x [cObjA, cObjB, cObjC] = -2 := by
    norm_num [distBoxSpo, hsorted, hminA, hminB, hminC, hmaxA, hmaxB, hmaxC,
      listMin, listMax, min_def, max_def]
  have hout : distribute Axis.x false [cObjA, cObjB, cObjC] =
      [cObjA, moveLoc Axis.x 7 cObjB, moveLoc Axis.x 7 cObjC] := by
    norm_num [distribute, distributeBoxes, hsorted, hspo, restore, tagFrom,
      lookupTag, distLoop, hminB, hminC, hmaxA, hmaxB]
  have hB' : axisMax Axis.x (moveLoc Axis.x 7 cObjB) = 11 := by
    rw [axisMax_moveLoc_same Axis.x 7 cObjB (by decide), hmaxB]
    norm_num
  have hC' : axisMax Axis.x (moveLoc Axis.x 7 cObjC) = 10 := by
    rw [axisMax_moveLoc_same Axis.x 7 cObjC (by decide), hmaxC]
    norm_num
  rw [hout]
  norm_num [hmaxA, hmaxB, hmaxC, hB', hC', listMax, max_def]

/-- Witness for the amended C2 on two disjoint point boxes at x = 0 and
x = 2, whose computed spacing is 2 and hence nonnegative. -/
theorem distribute_boxes_spec_witness :
    listMin ((distribute Axis.x false [wObjA, wObjB]).map (axisMin Axis.x)) =
      listMin (([wObjA, wObjB] : List Obj).map (axisMin Axis.x)) := by
  have hminA : axisMin Axis.x wObjA = 0 := by
    norm_num [axisMin, bounding_box, worldVerts, listMin, Vec3.coord, wObjA,
      min_def]
  have hminB : axisMin Axis.x wObjB = 2 := by
    norm_num [axisMin, bounding_box, worldVerts, listMin, Vec3.coord, wObjB,
      min_def]
  have hmaxA : axisMax Axis.x wObjA = 0 := by
    norm_num [axisMax, bounding_box, worldVerts, listMax, Vec3.coord, wObjA,
      max_def]
  have hmaxB : axisMax Axis.x wObjB = 2 := by
    norm_num [axisMax, bounding_box, worldVerts, listMax, Vec3.coord, wObjB,
      max_def]
  have hsorted : distBoxSorted Axis.x [wObjA, wObjB] =
      [(0, wObjA), (1, wObjB)] := by
    norm_num [distBoxSorted, sortByKey, insertByKey, tagFrom, hminA, hminB]
  have hspo : distBoxSpo Axis.x [wObjA, wObjB] = 2 := by
    norm_num [distBoxSpo, hsorted, hminA, hminB, hmaxA, hmaxB, listMin,
      listMax, min_def, max_def]
  exact (distribute_boxes_spec Axis.x [wObjA, wObjB] (by decide) (by decide)
    (by rw [hspo]; norm_num)).2.2.1
